import Mathlib

/-!
Verification of the micro-gravity extension pipeline (src/src/index.ts).

The development shallowly embeds the discovery, ordering and activation code
of the repository: JavaScript objects become association lists, the file
system becomes an explicit tree value, and the external koffi / module-import
services become boolean oracles supplied as an environment.  Every definition
mirrors the corresponding TypeScript function; theorems at the end settle the
frozen claims about the specification.
-/

namespace MicroGravity

/-! ## Type mapping (TYPE_MAP, src/src/index.ts lines 61 to 66)

A JavaScript property read on a plain object literal falls back to the
properties inherited from the prototype of plain objects when the key is not
an own key.  The value of such an inherited property is not a string; for the
embedding we only need to know that it is truthy and distinct from every
string, so it is modelled by a dedicated constructor carrying the key.
-/

/-- Result of reading a property of a plain JavaScript object: an own string
value, an inherited (truthy, non-string) value from the object prototype, or
undefined. -/
inductive JsVal where
  | vstr (s : String) : JsVal
  | vinherited (key : String) : JsVal
  | vabsent : JsVal
deriving DecidableEq, Repr

/-- Own keys of the prototype of plain JavaScript objects (Node.js): a read of
one of these keys on an object literal that lacks an own entry yields a truthy
non-string value. -/
def objectProtoKeys : List String :=
  ["constructor", "hasOwnProperty", "isPrototypeOf", "propertyIsEnumerable",
   "toLocaleString", "toString", "valueOf", "__defineGetter__",
   "__defineSetter__", "__lookupGetter__", "__lookupSetter__", "__proto__"]

/-- Own entries of the TYPE_MAP object literal. -/
def TYPE_MAP : List (String × String) :=
  [("string", "str"), ("f64", "double"), ("bool", "bool"), ("void", "void")]

/-- Property read TYPE_MAP[p] with JavaScript semantics: own entry first, then
the prototype chain of a plain object literal, else undefined. -/
def typeMapGet (p : String) : JsVal :=
  match TYPE_MAP.lookup p with
  | some v => .vstr v
  | none => if p ∈ objectProtoKeys then .vinherited p else .vabsent

/-- JavaScript truthiness of the values a TYPE_MAP read can produce. -/
def JsVal.truthy : JsVal → Bool
  | .vstr s => s ≠ ""
  | .vinherited _ => true
  | .vabsent => false

/-- The expression TYPE_MAP[p] || p used on every parameter and result type
before a binding request (src/src/index.ts lines 260 to 261). -/
def translateType (p : String) : JsVal :=
  let v := typeMapGet p
  if v.truthy then v else .vstr p

/-! ## Data model (src/src/index.ts lines 19 to 46)

Optional JSON fields are modelled by Option; a missing or empty string field
is falsy in the source, which tests several of them with plain truthiness.
-/

/-- NativeFunctionDef of the manifest: symbol, parameter type names, result
type name. -/
structure NativeFunctionDef where
  symbol : String
  parameters : List String
  result : String
deriving DecidableEq, Repr

/-- V8FunctionDef of the manifest (only its key is ever consulted). -/
structure V8FunctionDef where
  symbol : String
deriving DecidableEq, Repr

/-- Native section of a manifest: binding library path plus the two optional
function tables.  Records of the JSON manifest become association lists in
their key order. -/
structure NativeSpec where
  path : String
  functions : Option (List (String × NativeFunctionDef))
  v8_functions : Option (List (String × V8FunctionDef))
deriving DecidableEq, Repr

/-- TitanJson, the parsed manifest.  The source casts the parse result without
validation, so the required name field is still modelled as optional. -/
structure TitanJson where
  name : Option String
  main : Option String
  native : Option NativeSpec
deriving DecidableEq, Repr

/-- Truthiness of an optional string field (missing or empty is falsy). -/
def strTruthy : Option String → Bool
  | none => false
  | some s => s ≠ ""

/-- Dependency-name lists of a package.json file, each in object key order. -/
structure PackageJson where
  dependencies : List String
  peerDependencies : List String
  devDependencies : List String
deriving DecidableEq, Repr

/-- Parse outcome for a titan.json file found on disk. -/
inductive ManifestState where
  | absent : ManifestState
  | invalid : ManifestState
  | parsed (tj : TitanJson) : ManifestState
deriving DecidableEq, Repr

/-- TitanExtension (src/src/index.ts lines 19 to 24).  The pkgJson field
models the contents of the package.json file located at this extension's
path: sortByDependencies reads that file from disk, and none stands for a
missing or unparseable file (whose read is swallowed by the source). -/
structure TitanExtension where
  name : String
  path : String
  titanJson : TitanJson
  pkgJson : Option PackageJson
  isLocal : Bool
deriving DecidableEq, Repr

/-! ## Dependency sorting (sortByDependencies, src/src/index.ts lines 178 to 226) -/

/-- Key list of a JavaScript object spread: first occurrence of each key keeps
its position, later spreads only append new keys. -/
def dedupKeysAux (seen : List String) : List String → List String
  | [] => []
  | a :: l => if a ∈ seen then dedupKeysAux seen l else a :: dedupKeysAux (a :: seen) l

/-- Keys of the merged object spread of dependencies, peerDependencies and
devDependencies, in JavaScript insertion order. -/
def dedupKeys (l : List String) : List String := dedupKeysAux [] l

/-- Dependency names consulted for an extension: the key list of the object
spread built from its package.json, or empty when that file is missing or
unparseable (the source swallows the error). -/
def depKeys (e : TitanExtension) : List String :=
  match e.pkgJson with
  | none => []
  | some p => dedupKeys (p.dependencies ++ p.peerDependencies ++ p.devDependencies)

/-- Lookup in the Map built by new Map(extensions.map(e => [e.name, e])):
for a duplicated name the last entry wins. -/
def byNameGet (exts : List TitanExtension) (n : String) : Option TitanExtension :=
  exts.foldl (fun acc e => if e.name = n then some e else acc) none

/-- Mutable state of the depth-first visit: the output list and the two name
sets, modelled as lists with membership semantics. -/
structure SortState where
  sorted : List TitanExtension
  visited : List String
  visiting : List String
deriving DecidableEq, Repr

/-- Recursive visit of sortByDependencies.  The fuel argument bounds the
recursion depth; every visit that does not short-circuit adds a fresh name to
the visiting set, so any fuel exceeding the number of extension names follows
the source exactly (the theorems below only ever rely on fuel-independent
facts or instantiate the bound). -/
def visit (exts : List TitanExtension) : Nat → TitanExtension → SortState → SortState
  | 0, _, s => s
  | f + 1, ext, s =>
    if ext.name ∈ s.visited then s
    else if ext.name ∈ s.visiting then s
    else
      let s1 : SortState := ⟨s.sorted, s.visited, ext.name :: s.visiting⟩
      let s2 := (depKeys ext).foldl
        (fun st dn =>
          match byNameGet exts dn with
          | some dep => visit exts f dep st
          | none => st) s1
      ⟨s2.sorted ++ [ext], ext.name :: s2.visited, s2.visiting.erase ext.name⟩

/-- Loop over the dependency names of one extension, naming the fold inside
visit so that lemmas can speak about it. -/
def visitDeps (exts : List TitanExtension) (f : Nat) (l : List String) (s : SortState) : SortState :=
  l.foldl
    (fun st dn =>
      match byNameGet exts dn with
      | some dep => visit exts f dep st
      | none => st) s

/-- sortByDependencies: visit every non-local extension in discovery order,
then the first local one, and return the accumulated post-order. -/
def sortByDependencies (extensions : List TitanExtension) : List TitanExtension :=
  let nodeModulesExts := extensions.filter (fun e => !e.isLocal)
  let localExt := extensions.find? (fun e => e.isLocal)
  let fuel := extensions.length + 1
  let s1 := nodeModulesExts.foldl (fun s e => visit extensions fuel e s) ⟨[], [], []⟩
  let s2 := match localExt with
    | some l => visit extensions fuel l s1
    | none => s1
  s2.sorted

/-! ## Discovery (discoverExtensions and scanNodeModules, src/src/index.ts lines 77 to 168)

The directory tree below a node_modules directory is an explicit value: an
entry is either a non-directory (skipped by the statSync test, which also
covers a failing stat) or a directory with a name, the parse state of its
titan.json, the contents of its package.json and its own sub-directory
listing.  A directory listing that cannot be read at all behaves exactly like
an absent one, so an unreadable node_modules is modelled by its absence.
-/

/-- Entry of a directory listing as seen by scanNodeModules. -/
inductive NMEntry where
  | file (name : String) : NMEntry
  | dir (name : String) (mfst : ManifestState) (pkgJson : Option PackageJson)
      (listing : List NMEntry) : NMEntry

mutual

/-- Size of one directory entry, used as recursion fuel for the walk. -/
def nmSize : NMEntry → Nat
  | .file _ => 1
  | .dir _ _ _ sub => 1 + nmListSize sub

/-- Size of a directory listing, used as recursion fuel for the walk. -/
def nmListSize : List NMEntry → Nat
  | [] => 1
  | e :: rest => 1 + nmSize e + nmListSize rest

end

/-- Listing of the directory child named node_modules, when that child exists
and is a readable directory. -/
def findNM : List NMEntry → Option (List NMEntry)
  | [] => none
  | .file _ :: rest => findNM rest
  | .dir nm _ _ sub :: rest => if nm = "node_modules" then some sub else findNM rest

/-- Root directory of a discovery run: parse state of the titan.json at the
root, contents of the package.json at the root, and the listing of the
node_modules child when present. -/
structure RootFs where
  mfst : ManifestState
  pkgJson : Option PackageJson
  nodeModules : Option (List NMEntry)

/-- Accumulated discovery result: the insertion-ordered Map of extensions and
the messages given to the logging side channel. -/
structure Found where
  exts : List TitanExtension
  logs : List String
deriving DecidableEq, Repr

/-- Membership test found.has(name). -/
def Found.hasName (st : Found) (n : String) : Bool :=
  st.exts.any (fun e => e.name = n)

/-- The titan.json check of one candidate directory inside node_modules
(src/src/index.ts lines 141 to 160): a parse failure warns, a parsed manifest
registers a non-local extension only when its name is truthy and not yet
registered, and in every other case nothing happens. -/
def checkTitan (full : String) (mfst : ManifestState) (pj : Option PackageJson)
    (st : Found) : Found :=
  match mfst with
  | .absent => st
  | .invalid => ⟨st.exts, st.logs ++ [s!"Warning: Invalid titan.json in {full}"]⟩
  | .parsed tj =>
    match tj.name with
    | none => st
    | some n =>
      if n ≠ "" ∧ ¬ st.hasName n then
        ⟨st.exts ++ [⟨n, full, tj, pj, false⟩], st.logs ++ [s!"Found extension: {n}"]⟩
      else st

/-- The one-character prefix tests of the scanner, entry.startsWith with a
dot for hidden entries and with an at sign for scope directories
(src/src/index.ts lines 124 and 135), written as a first-character test so
that concrete runs evaluate inside the kernel. -/
def strStarts (s : String) (c : Char) : Bool :=
  match s.data with
  | [] => false
  | c0 :: _ => c0 = c

/-- Recursive walk of scanNodeModules over a directory listing.  Hidden
entries and non-directories are skipped, a scope directory has its children
scanned as candidates, and every candidate directory has its titan.json
checked and its nested node_modules scanned.  The fuel decreases on every
call; it only bounds the walk, and all claims proved below are either
invariants that hold for every fuel or concrete runs whose fuel visibly
suffices. -/
def scanNM : Nat → List NMEntry → String → Found → Found
  | 0, _, _, st => st
  | _ + 1, [], _, st => st
  | f + 1, .file _ :: rest, d, st => scanNM f rest d st
  | f + 1, .dir nm mfst pj sub :: rest, d, st =>
    if strStarts nm '.' then scanNM f rest d st
    else
      let full := d ++ "/" ++ nm
      if strStarts nm '@' then scanNM f rest d (scanNM f sub full st)
      else
        let st1 := checkTitan full mfst pj st
        let st2 := match findNM sub with
          | some nmsub => scanNM f nmsub (full ++ "/node_modules") st1
          | none => st1
        scanNM f rest d st2

/-- Local-project step of discoverExtensions (src/src/index.ts lines 80 to
99): register the local extension when the root titan.json parses with a
truthy name; a parse failure warns, and a missing or falsy name silently
yields nothing. -/
def rootState (rootDir : String) (fs : RootFs) : Found :=
  match fs.mfst with
  | .absent => ⟨[], []⟩
  | .invalid => ⟨[], ["Warning: Invalid titan.json in project root"]⟩
  | .parsed tj =>
    match tj.name with
    | none => ⟨[], []⟩
    | some n =>
      if n ≠ "" then ⟨[⟨n, rootDir, tj, fs.pkgJson, true⟩], [s!"Found local extension: {n}"]⟩
      else ⟨[], []⟩

/-- discoverExtensions (src/src/index.ts lines 77 to 108): the local-project
step followed by the node_modules scan.  The scan fuel is the size of the
tree value, which always exceeds the number of walk steps. -/
def discoverExtensions (rootDir : String) (fs : RootFs) : Found :=
  match fs.nodeModules with
  | some l => scanNM (nmListSize l) l (rootDir ++ "/node_modules") (rootState rootDir fs)
  | none => rootState rootDir fs

/-- Relation between the state a scan starts from and the state it produces:
extensions are only appended, every appended extension is non-local with a
parsed truthy name that was not yet registered, registered names stay
duplicate-free, and the log is only appended to. -/
def ScanStep (st res : Found) : Prop :=
  ∃ Δ, res.exts = st.exts ++ Δ ∧
    (∀ e ∈ Δ, e.isLocal = false ∧ e.titanJson.name = some e.name ∧ e.name ≠ "" ∧
      e.name ∉ st.exts.map TitanExtension.name) ∧
    ((st.exts.map TitanExtension.name).Nodup → (res.exts.map TitanExtension.name).Nodup) ∧
    (∃ ltail, res.logs = st.logs ++ ltail)

/-- The warning scanNodeModules logs for one candidate directory whose
titan.json fails to parse (src/src/index.ts lines 157 to 159), and nothing
for any other parse state. -/
def warnOf (full : String) : ManifestState → List String
  | .invalid => [s!"Warning: Invalid titan.json in {full}"]
  | _ => []

/-- The invalid-manifest warnings of a whole node_modules walk: one message
per candidate directory with an unparseable titan.json, collected along
exactly the traversal of scanNM (hidden entries skipped, scope directories
descended, nested node_modules followed, same fuel discipline). -/
def invalidWarns : Nat → List NMEntry → String → List String
  | 0, _, _ => []
  | _ + 1, [], _ => []
  | f + 1, .file _ :: rest, d => invalidWarns f rest d
  | f + 1, .dir nm mfst _ sub :: rest, d =>
    if strStarts nm '.' then invalidWarns f rest d
    else
      let full := d ++ "/" ++ nm
      if strStarts nm '@' then invalidWarns f sub full ++ invalidWarns f rest d
      else
        warnOf full mfst ++
          (match findNM sub with
            | some nmsub => invalidWarns f nmsub (full ++ "/node_modules")
            | none => []) ++
          invalidWarns f rest d

/-- Replace a parsed manifest whose name field is not truthy by an absent
one; parsed manifests with a truthy name, invalid manifests and absent
manifests are kept unchanged. -/
def mfstDrop : ManifestState → ManifestState
  | .parsed tj => if strTruthy tj.name then .parsed tj else .absent
  | m => m

mutual

/-- Apply mfstDrop to the manifest of every directory inside one entry. -/
def nmDrop : NMEntry → NMEntry
  | .file n => .file n
  | .dir n mfst pj sub => .dir n (mfstDrop mfst) pj (nmListDrop sub)

/-- Apply mfstDrop to the manifest of every directory inside a listing. -/
def nmListDrop : List NMEntry → List NMEntry
  | [] => []
  | e :: rest => nmDrop e :: nmListDrop rest

end

/-! ## Extension loading (loadExtension, src/src/index.ts lines 235 to 307)

The shared namespace t is an association list in insertion order, its values
either the fixed logging function (a function object that still accepts
property writes) or a plain property bag.  The koffi library and the
module-import service are external, modelled by boolean oracles: whether a
path exists on disk, whether koffi.load succeeds, whether one lib.func
request succeeds, and whether one module execution succeeds.
-/

/-- Value stored in an extension bag: a koffi binding produced from the
translated types, or one of the two v8 serialization operations. -/
inductive TValue where
  | koffiFn (symbol : String) (result : JsVal) (params : List JsVal) : TValue
  | v8serialize : TValue
  | v8deserialize : TValue
deriving DecidableEq, Repr

/-- Property bag of one namespace entry, in insertion order. -/
abbrev Bag := List (String × TValue)

/-- Value of one entry of the shared namespace t: the fixed logging function
(whose attached properties are kept, since assigning through t[name][k] works
on a function object too) or a plain object bag. -/
inductive TEntry where
  | logFn (props : Bag) : TEntry
  | tbag (b : Bag) : TEntry
deriving DecidableEq, Repr

/-- The shared namespace object t, an insertion-ordered association list. -/
abbrev TMap := List (String × TEntry)

/-- Property read on a JavaScript object modelled as an association list. -/
def objGet {α : Type} (l : List (String × α)) (n : String) : Option α :=
  (l.find? (fun p => p.fst = n)).map Prod.snd

/-- Property write on a JavaScript object modelled as an association list:
update in place, or append a new key. -/
def objSet {α : Type} (l : List (String × α)) (n : String) (v : α) : List (String × α) :=
  if l.any (fun p => p.fst = n) then
    l.map (fun p => if p.fst = n then (n, v) else p)
  else l ++ [(n, v)]

/-- Property read t[n]. -/
def tGet (t : TMap) (n : String) : Option TEntry := objGet t n

/-- Property write t[n] = v. -/
def tSet (t : TMap) (n : String) (v : TEntry) : TMap := objSet t n v

/-- Property read b[k] on a bag. -/
def bagGet (b : Bag) (k : String) : Option TValue := objGet b k

/-- Property write b[k] = v on a bag. -/
def bagSet (b : Bag) (k : String) (v : TValue) : Bag := objSet b k v

/-- Property write on a namespace entry: the bag of a plain object, or the
properties attached to the logging function. -/
def TEntry.setProp : TEntry → String → TValue → TEntry
  | .logFn props, k, v => .logFn (bagSet props k v)
  | .tbag b, k, v => .tbag (bagSet b k v)

/-- The statement t[name] = t[name] || {} : every stored entry is truthy, so
an existing entry is kept and a missing one becomes an empty bag. -/
def tSetDefault (t : TMap) (n : String) : TMap :=
  match tGet t n with
  | some _ => t
  | none => tSet t n (.tbag [])

/-- Property write t[name][k] = v, defined only through the entry at name. -/
def tSetIn (t : TMap) (n : String) (k : String) (v : TValue) : TMap :=
  match tGet t n with
  | some e => tSet t n (e.setProp k v)
  | none => t

/-- External services of the activation step, as oracles. -/
structure LoadEnv where
  fsExists : String → Bool
  koffiLoadOk : String → Bool
  bindOk : String → JsVal → List JsVal → Bool
  importOk : String → Bool

/-- State threaded through loadExtension: the namespace, the logging side
channel and the list of retained library handles. -/
structure LoadState where
  t : TMap
  logs : List String
  libs : List String
deriving DecidableEq, Repr

/-- resolveDllPath (src/src/index.ts lines 304 to 307); absolute paths are
modelled as the POSIX convention of a leading slash. -/
def resolveDllPath (dllPath : String) (extPath : String) : String :=
  if dllPath.startsWith "/" then dllPath else extPath ++ "/" ++ dllPath

/-- Binding loop over the declared native functions (src/src/index.ts lines
258 to 269): each declared function has its types translated and is bound
through the oracle, a failing binding only logging a warning. -/
def bindFunctions (env : LoadEnv) (name : String)
    (fns : List (String × NativeFunctionDef)) (s : LoadState) : LoadState :=
  fns.foldl
    (fun st fd =>
      let fnName := fd.fst
      let d := fd.snd
      let params := d.parameters.map translateType
      let result := translateType d.result
      if env.bindOk d.symbol result params then
        ⟨tSetIn st.t name fnName (.koffiFn d.symbol result params), st.logs, st.libs⟩
      else
        ⟨st.t, st.logs ++ [s!"Warning: Failed to load native function {fnName}: <error>"], st.libs⟩)
    s

/-- The v8 serialization hook step (src/src/index.ts lines 272 to 279). -/
def bindV8 (name : String) (vfs : List (String × V8FunctionDef)) (s : LoadState) : LoadState :=
  let s1 :=
    if vfs.any (fun p => p.fst = "serialize") then
      ⟨tSetIn s.t name "serialize" .v8serialize, s.logs, s.libs⟩
    else s
  if vfs.any (fun p => p.fst = "deserialize") then
    ⟨tSetIn s1.t name "deserialize" .v8deserialize, s1.logs, s1.libs⟩
  else s1

/-- Conditional functions-binding loop, absent when the manifest declares no
functions table. -/
def bindFnsOpt (env : LoadEnv) (name : String) :
    Option (List (String × NativeFunctionDef)) → LoadState → LoadState
  | none, s => s
  | some fns, s => bindFunctions env name fns s

/-- Conditional v8-hook step, absent when the manifest declares no
v8_functions table. -/
def bindV8Opt (name : String) : Option (List (String × V8FunctionDef)) → LoadState → LoadState
  | none, s => s
  | some vfs, s => bindV8 name vfs s

/-- The initial log line of loadExtension. -/
def loadingMsg (ext : TitanExtension) : String :=
  s!"Loading: {ext.name} " ++ (if ext.isLocal then "(local)" else "")

/-- Native-binding block of loadExtension (src/src/index.ts lines 249 to
288), which runs only when the descriptor declares a truthy native path: the
library is loaded through the oracle, the declared functions are bound, the
v8 hooks are installed, and a missing library or a failing load only logs a
warning. -/
def bindNative (env : LoadEnv) (ext : TitanExtension) : Option NativeSpec → LoadState → LoadState
  | none, s0 => s0
  | some ns, s0 =>
    if ns.path = "" then s0
    else
      let dllPath := resolveDllPath ns.path ext.path
      if env.fsExists dllPath then
        if env.koffiLoadOk dllPath then
          let s1 : LoadState := ⟨s0.t, s0.logs, s0.libs ++ [dllPath]⟩
          let s3 := bindV8Opt ext.name ns.v8_functions (bindFnsOpt env ext.name ns.functions s1)
          ⟨s3.t, s3.logs ++ [s!"Loaded native: {dllPath}"], s3.libs⟩
        else ⟨s0.t, s0.logs ++ [s!"Warning: Failed to load DLL {dllPath}: <error>"], s0.libs⟩
      else ⟨s0.t, s0.logs ++ [s!"Warning: DLL not found: {dllPath}"], s0.libs⟩

/-- Binding phase of loadExtension (src/src/index.ts lines 240 to 288): the
initial log line, the namespace initialization, and the native-binding
block. -/
def bindPhase (env : LoadEnv) (ext : TitanExtension) (s : LoadState) : LoadState :=
  bindNative env ext ext.titanJson.native
    ⟨tSetDefault s.t ext.name, s.logs ++ [loadingMsg ext], s.libs⟩

/-- Main file of an extension: the declared main when truthy, else the
conventional default (titanJson.main || index.js). -/
def mainFileOf (tj : TitanJson) : String :=
  match tj.main with
  | some m => if m ≠ "" then m else "index.js"
  | none => "index.js"

/-- Resolved path of the entry module. -/
def jsMainPath (ext : TitanExtension) : String :=
  ext.path ++ "/" ++ mainFileOf ext.titanJson

/-- Entry-module phase of loadExtension (src/src/index.ts lines 290 to 301):
resolve the main file with its default, and execute it when present.  The
executed module is an external unit whose effects are outside the model, so
only the logging outcome is recorded. -/
def jsPhase (env : LoadEnv) (ext : TitanExtension) (s : LoadState) : LoadState :=
  if env.fsExists (jsMainPath ext) then
    if env.importOk (jsMainPath ext) then
      ⟨s.t, s.logs ++ [s!"Loaded JS: {jsMainPath ext}"], s.libs⟩
    else ⟨s.t, s.logs ++ [s!"Warning: Failed to load JS {jsMainPath ext}: <error>"], s.libs⟩
  else s

/-- loadExtension: the binding phase followed by the entry-module phase. -/
def loadExtension (env : LoadEnv) (ext : TitanExtension) (s : LoadState) : LoadState :=
  jsPhase env ext (bindPhase env ext s)

/-! ## Derived predicates used by the verification -/

/-- Presence of a property key in a namespace entry. -/
def TEntry.hasKey : TEntry → String → Bool
  | .logFn props, k => props.any (fun p => p.fst = k)
  | .tbag b, k => b.any (fun p => p.fst = k)

/-- Presence of a property key in a bag. -/
def bagHas (b : Bag) (k : String) : Bool := b.any (fun p => p.fst = k)

/-- Property read through a namespace entry. -/
def TEntry.getProp : TEntry → String → Option TValue
  | .logFn props, k => bagGet props k
  | .tbag b, k => bagGet b k

/-- Invariant tying the visited set to the output list: a name is visited
exactly when it is the name of an emitted extension, and emitted names are
duplicate-free. -/
def SortInv (s : SortState) : Prop :=
  (∀ n, n ∈ s.visited ↔ n ∈ s.sorted.map TitanExtension.name) ∧
  (s.sorted.map TitanExtension.name).Nodup

/-- Relation between the state a visit starts from and the state it
produces: the visiting set is restored, the output only grows by extensions
of the set, the visited set grows exactly by the names of the newly emitted
extensions, none of which was mid-visit, and the invariant is preserved. -/
def VisitOut (exts : List TitanExtension) (s s' : SortState) : Prop :=
  s'.visiting = s.visiting ∧
  ∃ Δ, s'.sorted = s.sorted ++ Δ ∧
    (∀ e ∈ Δ, e ∈ exts) ∧
    (∀ n, n ∈ s'.visited ↔ n ∈ s.visited ∨ n ∈ Δ.map TitanExtension.name) ∧
    (∀ n ∈ Δ.map TitanExtension.name, n ∉ s.visiting) ∧
    (SortInv s → SortInv s')

/-- Number of extension names not currently mid-visit; it bounds the depth
the visit can still recurse to. -/
def freeCount (exts : List TitanExtension) (s : SortState) : Nat :=
  ((exts.map TitanExtension.name).filter (fun n => n ∉ s.visiting)).length

/-- Dependency edge between two names of the discovered set: the first
resolves to an extension that declares the second, which also resolves. -/
def depEdge (exts : List TitanExtension) (a b : String) : Prop :=
  ∃ A B, byNameGet exts a = some A ∧ byNameGet exts b = some B ∧ b ∈ depKeys A

/-- The visiting stack read as a dependency chain: every outer entry declares
a dependency edge to the entry pushed right after it. -/
def ChainCons (exts : List TitanExtension) : List String → Prop
  | [] => True
  | [_] => True
  | a :: b :: t => depEdge exts b a ∧ ChainCons exts (b :: t)

/-- Positional ordering invariant of the output list: every emitted extension
has all its resolvable declared dependencies emitted strictly before it. -/
def Ksorted (exts : List TitanExtension) (s : SortState) : Prop :=
  ∀ (i : Nat) (h : i < s.sorted.length), ∀ dn ∈ depKeys (s.sorted.get ⟨i, h⟩), ∀ dep,
    byNameGet exts dn = some dep →
    dep.name ∈ (s.sorted.take i).map TitanExtension.name

/-! ## Claim C2: the type-name translation -/

/-- Claim C2, counterexample: the translation is not the identity on every
name outside the four-entry alias table.  For the name toString the object
read TYPE_MAP[p] finds the truthy value inherited from the plain-object
prototype, so TYPE_MAP[p] || p yields that inherited value instead of the
unchanged name; the same happens for constructor. -/
theorem C2_translation_counterexample :
    translateType "toString" = JsVal.vinherited "toString" ∧
    JsVal.vinherited "toString" ≠ JsVal.vstr "toString" ∧
    translateType "constructor" = JsVal.vinherited "constructor" := by
  decide

/-- Claim C2, amended: the translation maps string, f64, bool and void to
their native tokens, and is the identity for every other name that is not an
inherited property key of the plain-object prototype; for those inherited
keys (such as toString or constructor) it instead returns the truthy
inherited value. -/
theorem C2_translation_amended (p : String)
    (h1 : p ∉ ["string", "f64", "bool", "void"]) (h2 : p ∉ objectProtoKeys) :
    translateType p = JsVal.vstr p ∧
    translateType "string" = JsVal.vstr "str" ∧
    translateType "f64" = JsVal.vstr "double" ∧
    translateType "bool" = JsVal.vstr "bool" ∧
    translateType "void" = JsVal.vstr "void" := by
  refine ⟨?_, by decide, by decide, by decide, by decide⟩
  have h1' : ¬(p = "string" ∨ p = "f64" ∨ p = "bool" ∨ p = "void") := by
    simpa using h1
  push_neg at h1'
  obtain ⟨e1, e2, e3, e4⟩ := h1'
  have b1 : (p == "string") = false := beq_eq_false_iff_ne.mpr e1
  have b2 : (p == "f64") = false := beq_eq_false_iff_ne.mpr e2
  have b3 : (p == "bool") = false := beq_eq_false_iff_ne.mpr e3
  have b4 : (p == "void") = false := beq_eq_false_iff_ne.mpr e4
  simp [translateType, typeMapGet, TYPE_MAP, List.lookup, b1, b2, b3, b4, h2, JsVal.truthy]

/-- Claim C2, witness: the amended theorem applied to the name i32, which is
outside both the alias table and the prototype keys and passes through
unchanged. -/
theorem C2_translation_witness :
    translateType "i32" = JsVal.vstr "i32" :=
  (C2_translation_amended "i32" (by decide) (by decide)).1

/-! ## Namespace-map lemmas -/

/-- Replacing the entries of one key does not change the lookup of another. -/
theorem objGet_update_ne {α : Type} (t : List (String × α)) (m n : String) (v : α) (h : n ≠ m) :
    objGet (t.map (fun p => if p.fst = m then (m, v) else p)) n = objGet t n := by
  induction t with
  | nil => rfl
  | cons p rest ih =>
    by_cases hp : p.fst = m
    · simp only [objGet, List.map_cons, if_pos hp, List.find?]
      simp only [decide_eq_true_eq, Ne.symm h, hp, Ne.symm (hp ▸ h : n ≠ p.fst)]
      exact ih
    · simp only [objGet, List.map_cons, if_neg hp, List.find?]
      by_cases hn : p.fst = n
      · simp [hn]
      · simp only [decide_eq_true_eq, hn]
        exact ih

/-- Appending an entry for one key does not change the lookup of another. -/
theorem objGet_append_ne {α : Type} (t : List (String × α)) (m n : String) (v : α) (h : n ≠ m) :
    objGet (t ++ [(m, v)]) n = objGet t n := by
  induction t with
  | nil => simp [objGet, List.find?, Ne.symm h]
  | cons p rest ih =>
    simp only [objGet, List.cons_append, List.find?] at *
    by_cases hn : p.fst = n
    · simp [hn]
    · simp only [decide_eq_true_eq, hn]
      exact ih

/-- Writing one key of an object leaves every other key unchanged. -/
theorem objGet_objSet_ne {α : Type} (t : List (String × α)) (m n : String) (v : α) (h : n ≠ m) :
    objGet (objSet t m v) n = objGet t n := by
  unfold objSet
  by_cases hany : t.any (fun p => decide (p.fst = m)) = true
  · rw [if_pos hany]
    exact objGet_update_ne t m n v h
  · rw [if_neg hany]
    exact objGet_append_ne t m n v h

/-- Writing a key of an object makes that key hold the written value. -/
theorem objGet_objSet_self {α : Type} (t : List (String × α)) (m : String) (v : α) :
    objGet (objSet t m v) m = some v := by
  unfold objSet
  by_cases hany : t.any (fun p => decide (p.fst = m)) = true
  · rw [if_pos hany]
    simp only [List.any_eq_true, decide_eq_true_eq] at hany
    obtain ⟨x, hx, hxm⟩ := hany
    induction t with
    | nil => simp at hx
    | cons p rest ih =>
      by_cases hp : p.fst = m
      · simp [objGet, List.find?, hp]
      · have hd : (if p.fst = m then (m, v) else p) = p := if_neg hp
        have hb : decide (p.fst = m) = false := decide_eq_false hp
        simp only [objGet, List.map_cons, hd, List.find?, hb]
        rcases List.mem_cons.mp hx with rfl | hx'
        · exact absurd hxm hp
        · exact ih hx'
  · rw [if_neg hany]
    simp only [List.any_eq_true, decide_eq_true_eq, not_exists] at hany
    push_neg at hany
    induction t with
    | nil => simp [objGet, List.find?]
    | cons p rest ih =>
      have hp : ¬ p.fst = m := hany p (List.mem_cons_self p rest)
      have hb : decide (p.fst = m) = false := decide_eq_false hp
      simp only [objGet, List.cons_append, List.find?, hb]
      exact ih (fun x hx => hany x (List.mem_cons_of_mem p hx))

/-- Writing one key of the namespace leaves every other key unchanged. -/
theorem tGet_tSet_ne (t : TMap) (m n : String) (v : TEntry) (h : n ≠ m) :
    tGet (tSet t m v) n = tGet t n :=
  objGet_objSet_ne t m n v h

/-- Writing a key of the namespace makes that key hold the written value. -/
theorem tGet_tSet_self (t : TMap) (m : String) (v : TEntry) :
    tGet (tSet t m v) m = some v :=
  objGet_objSet_self t m v

/-- Default-initializing one key leaves every other key unchanged. -/
theorem tGet_tSetDefault_ne (t : TMap) (m n : String) (h : n ≠ m) :
    tGet (tSetDefault t m) n = tGet t n := by
  unfold tSetDefault
  cases tGet t m with
  | some e => rfl
  | none => exact tGet_tSet_ne t m n _ h

/-- Default-initializing a key makes it present. -/
theorem tGet_tSetDefault_self (t : TMap) (m : String) :
    ∃ e, tGet (tSetDefault t m) m = some e := by
  unfold tSetDefault
  cases h : tGet t m with
  | some e => exact ⟨e, h⟩
  | none => exact ⟨.tbag [], tGet_tSet_self t m _⟩

/-- Writing a property through one namespace entry leaves every other key
unchanged. -/
theorem tGet_tSetIn_ne (t : TMap) (m n k : String) (v : TValue) (h : n ≠ m) :
    tGet (tSetIn t m k v) n = tGet t n := by
  unfold tSetIn
  cases tGet t m with
  | some e => exact tGet_tSet_ne t m n _ h
  | none => rfl

/-- Writing a property through a present namespace entry keeps the key
present. -/
theorem tGet_tSetIn_self (t : TMap) (m k : String) (v : TValue) (e : TEntry)
    (h : tGet t m = some e) :
    tGet (tSetIn t m k v) m = some (e.setProp k v) := by
  unfold tSetIn
  rw [h]
  exact tGet_tSet_self t m _

/-- Writing a bag property keeps every present key present. -/
theorem bagSet_bagHas_mono (b : Bag) (k k' : String) (v : TValue)
    (h : bagHas b k' = true) : bagHas (bagSet b k v) k' = true := by
  by_cases hany : b.any (fun p => decide (p.fst = k)) = true
  · unfold bagSet objSet
    rw [if_pos hany]
    simp only [bagHas, List.any_eq_true, decide_eq_true_eq] at h ⊢
    obtain ⟨x, hx, hxk⟩ := h
    by_cases hxk2 : x.fst = k
    · exact ⟨(k, v), List.mem_map.mpr ⟨x, hx, by simp [hxk2]⟩, by simp [← hxk2, hxk]⟩
    · exact ⟨x, List.mem_map.mpr ⟨x, hx, by simp [hxk2]⟩, hxk⟩
  · unfold bagSet objSet
    rw [if_neg hany]
    simp only [bagHas, List.any_eq_true, decide_eq_true_eq] at h ⊢
    obtain ⟨x, hx, hxk⟩ := h
    exact ⟨x, List.mem_append_left _ hx, hxk⟩

/-- Writing a property through an entry keeps every present key present. -/
theorem setProp_hasKey_mono (e : TEntry) (k k' : String) (v : TValue)
    (h : e.hasKey k' = true) : (e.setProp k v).hasKey k' = true := by
  cases e with
  | logFn props => exact bagSet_bagHas_mono props k k' v h
  | tbag b => exact bagSet_bagHas_mono b k k' v h

/-- The functions-binding loop never touches a namespace key other than the
extension name, and any entry present at the extension name stays present
with all of its keys. -/
theorem bindFunctions_frame (env : LoadEnv) (name : String)
    (fns : List (String × NativeFunctionDef)) (s : LoadState) :
    (∀ n, n ≠ name → tGet (bindFunctions env name fns s).t n = tGet s.t n) ∧
    (∀ e0, tGet s.t name = some e0 →
      ∃ e, tGet (bindFunctions env name fns s).t name = some e ∧
        ∀ k, e0.hasKey k = true → e.hasKey k = true) := by
  induction fns generalizing s with
  | nil => exact ⟨fun n _ => rfl, fun e0 h => ⟨e0, h, fun _ hk => hk⟩⟩
  | cons fd rest ih =>
    by_cases hb : env.bindOk fd.snd.symbol (translateType fd.snd.result)
        (fd.snd.parameters.map translateType) = true
    · have step : bindFunctions env name (fd :: rest) s =
          bindFunctions env name rest
            ⟨tSetIn s.t name fd.fst (.koffiFn fd.snd.symbol (translateType fd.snd.result)
              (fd.snd.parameters.map translateType)), s.logs, s.libs⟩ := by
        simp [bindFunctions, hb]
      rw [step]
      set s' : LoadState := ⟨tSetIn s.t name fd.fst (.koffiFn fd.snd.symbol
        (translateType fd.snd.result) (fd.snd.parameters.map translateType)), s.logs, s.libs⟩
      refine ⟨fun n hn => ?_, fun e0 h0 => ?_⟩
      · rw [(ih s').1 n hn]
        exact tGet_tSetIn_ne s.t name n _ _ hn
      · have h1 : tGet s'.t name = some (e0.setProp fd.fst _) := tGet_tSetIn_self s.t name _ _ e0 h0
        obtain ⟨e, he, hk⟩ := (ih s').2 _ h1
        exact ⟨e, he, fun k hk0 => hk k (setProp_hasKey_mono e0 _ k _ hk0)⟩
    · have step : bindFunctions env name (fd :: rest) s =
          bindFunctions env name rest
            ⟨s.t, s.logs ++ [s!"Warning: Failed to load native function {fd.fst}: <error>"], s.libs⟩ := by
        simp [bindFunctions, hb]
      rw [step]
      set s' : LoadState := ⟨s.t, s.logs ++ [s!"Warning: Failed to load native function {fd.fst}: <error>"], s.libs⟩
      refine ⟨fun n hn => (ih s').1 n hn, fun e0 h0 => (ih s').2 e0 h0⟩

/-- The v8-hook step never touches a namespace key other than the extension
name, and any entry present at the extension name stays present with all of
its keys. -/
theorem bindV8_frame (name : String) (vfs : List (String × V8FunctionDef)) (s : LoadState) :
    (∀ n, n ≠ name → tGet (bindV8 name vfs s).t n = tGet s.t n) ∧
    (∀ e0, tGet s.t name = some e0 →
      ∃ e, tGet (bindV8 name vfs s).t name = some e ∧
        ∀ k, e0.hasKey k = true → e.hasKey k = true) := by
  unfold bindV8
  by_cases h1 : vfs.any (fun p => decide (p.fst = "serialize")) = true <;>
    by_cases h2 : vfs.any (fun p => decide (p.fst = "deserialize")) = true <;>
      simp only [h1, h2, if_true, if_false, Bool.false_eq_true] <;>
        refine ⟨fun n hn => ?_, fun e0 h0 => ?_⟩
  · rw [tGet_tSetIn_ne _ name n _ _ hn, tGet_tSetIn_ne _ name n _ _ hn]
  · have g1 : tGet (tSetIn s.t name "serialize" .v8serialize) name =
        some (e0.setProp "serialize" .v8serialize) := tGet_tSetIn_self s.t name _ _ e0 h0
    have g2 := tGet_tSetIn_self (tSetIn s.t name "serialize" .v8serialize) name
      "deserialize" .v8deserialize _ g1
    exact ⟨_, g2, fun k hk =>
      setProp_hasKey_mono _ _ k _ (setProp_hasKey_mono e0 _ k _ hk)⟩
  · exact tGet_tSetIn_ne _ name n _ _ hn
  · exact ⟨_, tGet_tSetIn_self s.t name _ _ e0 h0,
      fun k hk => setProp_hasKey_mono e0 _ k _ hk⟩
  · exact tGet_tSetIn_ne _ name n _ _ hn
  · exact ⟨_, tGet_tSetIn_self s.t name _ _ e0 h0,
      fun k hk => setProp_hasKey_mono e0 _ k _ hk⟩
  · trivial
  · exact ⟨e0, h0, fun _ hk => hk⟩

/-- An already-present namespace key is left untouched by its default
initialization. -/
theorem tSetDefault_of_present (t : TMap) (m : String) (e0 : TEntry)
    (h : tGet t m = some e0) : tSetDefault t m = t := by
  unfold tSetDefault
  rw [h]

/-! ## Claim C10: the binding phase only mutates the entry of the loaded extension -/

/-- Frame property of the conditional functions-binding loop. -/
theorem bindFnsOpt_frame (env : LoadEnv) (name : String)
    (ofns : Option (List (String × NativeFunctionDef))) (s : LoadState) :
    (∀ n, n ≠ name → tGet (bindFnsOpt env name ofns s).t n = tGet s.t n) ∧
    (∀ e0, tGet s.t name = some e0 →
      ∃ e, tGet (bindFnsOpt env name ofns s).t name = some e ∧
        ∀ k, e0.hasKey k = true → e.hasKey k = true) := by
  cases ofns with
  | none => exact ⟨fun _ _ => rfl, fun e0 h0 => ⟨e0, h0, fun _ hk => hk⟩⟩
  | some fns => exact bindFunctions_frame env name fns s

/-- Frame property of the conditional v8-hook step. -/
theorem bindV8Opt_frame (name : String)
    (ovfs : Option (List (String × V8FunctionDef))) (s : LoadState) :
    (∀ n, n ≠ name → tGet (bindV8Opt name ovfs s).t n = tGet s.t n) ∧
    (∀ e0, tGet s.t name = some e0 →
      ∃ e, tGet (bindV8Opt name ovfs s).t name = some e ∧
        ∀ k, e0.hasKey k = true → e.hasKey k = true) := by
  cases ovfs with
  | none => exact ⟨fun _ _ => rfl, fun e0 h0 => ⟨e0, h0, fun _ hk => hk⟩⟩
  | some vfs => exact bindV8_frame name vfs s

/-- Frame property of the whole native-binding block. -/
theorem bindNative_frame (env : LoadEnv) (ext : TitanExtension)
    (onat : Option NativeSpec) (s0 : LoadState) :
    (∀ n, n ≠ ext.name → tGet (bindNative env ext onat s0).t n = tGet s0.t n) ∧
    (∀ e0, tGet s0.t ext.name = some e0 →
      ∃ e, tGet (bindNative env ext onat s0).t ext.name = some e ∧
        ∀ k, e0.hasKey k = true → e.hasKey k = true) := by
  cases onat with
  | none => exact ⟨fun _ _ => rfl, fun e0 h0 => ⟨e0, h0, fun _ hk => hk⟩⟩
  | some ns =>
    by_cases hpath : ns.path = ""
    · simp only [bindNative, if_pos hpath]
      exact ⟨fun _ _ => trivial, fun e0 h0 => ⟨e0, h0, fun _ hk => hk⟩⟩
    · by_cases hfs : env.fsExists (resolveDllPath ns.path ext.path) = true
      · by_cases hko : env.koffiLoadOk (resolveDllPath ns.path ext.path) = true
        · have hfns := bindFnsOpt_frame env ext.name ns.functions
            ⟨s0.t, s0.logs, s0.libs ++ [resolveDllPath ns.path ext.path]⟩
          have hv8 := bindV8Opt_frame ext.name ns.v8_functions
            (bindFnsOpt env ext.name ns.functions
              ⟨s0.t, s0.logs, s0.libs ++ [resolveDllPath ns.path ext.path]⟩)
          simp only [bindNative, if_neg hpath, hfs, hko, if_true]
          refine ⟨fun n hn => ?_, fun e0 h0 => ?_⟩
          · rw [hv8.1 n hn, hfns.1 n hn]
          · obtain ⟨e2, he2, hk2⟩ := hfns.2 e0 h0
            obtain ⟨e3, he3, hk3⟩ := hv8.2 e2 he2
            exact ⟨e3, he3, fun k hk => hk3 k (hk2 k hk)⟩
        · simp only [bindNative, if_neg hpath, hfs, hko, if_true, Bool.false_eq_true, if_false]
          exact ⟨fun _ _ => trivial, fun e0 h0 => ⟨e0, h0, fun _ hk => hk⟩⟩
      · simp only [bindNative, if_neg hpath, hfs, Bool.false_eq_true, if_false]
        exact ⟨fun _ _ => trivial, fun e0 h0 => ⟨e0, h0, fun _ hk => hk⟩⟩

/-- Claim C10, confirmed: the binding phase of loadExtension (everything
except the execution of the entry module) changes no namespace key other than
the extension's own name; the entry at that name is present afterwards
(created when absent), and when an entry was already present its keys all
survive, only function and hook keys being added. -/
theorem C10_bindPhase_frame (env : LoadEnv) (ext : TitanExtension) (s : LoadState) :
    (∀ n, n ≠ ext.name → tGet (bindPhase env ext s).t n = tGet s.t n) ∧
    (∃ e, tGet (bindPhase env ext s).t ext.name = some e) ∧
    (∀ e0, tGet s.t ext.name = some e0 →
      ∃ e, tGet (bindPhase env ext s).t ext.name = some e ∧
        ∀ k, e0.hasKey k = true → e.hasKey k = true) := by
  unfold bindPhase
  obtain ⟨hne, hpres⟩ := bindNative_frame env ext ext.titanJson.native
    ⟨tSetDefault s.t ext.name, s.logs ++ [loadingMsg ext], s.libs⟩
  refine ⟨fun n hn => ?_, ?_, fun e0 h0 => ?_⟩
  · rw [hne n hn]
    exact tGet_tSetDefault_ne s.t ext.name n hn
  · obtain ⟨e, he⟩ := tGet_tSetDefault_self s.t ext.name
    obtain ⟨e2, he2, _⟩ := hpres e he
    exact ⟨e2, he2⟩
  · have h0' : tGet (tSetDefault s.t ext.name) ext.name = some e0 := by
      rw [tSetDefault_of_present s.t ext.name e0 h0]
      exact h0
    exact hpres e0 h0'

/-- Claim C10, witness: a concrete run of the binding phase on an extension
with one native function, starting from the initial namespace, leaves the
fixed log and native entries unchanged. -/
theorem C10_bindPhase_frame_witness :
    tGet (bindPhase
      ⟨fun _ => true, fun _ => true, fun _ _ _ => true, fun _ => true⟩
      ⟨"crypto", "/nm/crypto",
        ⟨some "crypto", none, some ⟨"lib.so", some [("hash", ⟨"crypto_hash", ["string"], "string"⟩)], none⟩⟩,
        none, false⟩
      ⟨[("log", .logFn []), ("native", .tbag [])], [], []⟩).t "log" =
      some (.logFn []) := by
  have h := (C10_bindPhase_frame
    ⟨fun _ => true, fun _ => true, fun _ _ _ => true, fun _ => true⟩
    ⟨"crypto", "/nm/crypto",
      ⟨some "crypto", none, some ⟨"lib.so", some [("hash", ⟨"crypto_hash", ["string"], "string"⟩)], none⟩⟩,
      none, false⟩
    ⟨[("log", .logFn []), ("native", .tbag [])], [], []⟩).1 "log" (by decide)
  rw [h]
  rfl

/-- Writing a property of an entry makes that property hold the value. -/
theorem getProp_setProp_self (e : TEntry) (k : String) (v : TValue) :
    (e.setProp k v).getProp k = some v := by
  cases e with
  | logFn props => exact objGet_objSet_self props k v
  | tbag b => exact objGet_objSet_self b k v

/-- Writing a property of an entry leaves other properties unchanged. -/
theorem getProp_setProp_ne (e : TEntry) (k k' : String) (v : TValue) (h : k' ≠ k) :
    (e.setProp k v).getProp k' = e.getProp k' := by
  cases e with
  | logFn props => exact objGet_objSet_ne props k k' v h
  | tbag b => exact objGet_objSet_ne b k k' v h

/-- The entry-module phase never touches the namespace (the executed module
is outside the model). -/
theorem jsPhase_t (env : LoadEnv) (ext : TitanExtension) (s : LoadState) :
    (jsPhase env ext s).t = s.t := by
  unfold jsPhase
  split
  · split <;> rfl
  · rfl

/-- The entry-module phase only appends to the log. -/
theorem jsPhase_logs (env : LoadEnv) (ext : TitanExtension) (s : LoadState) :
    ∃ tail, (jsPhase env ext s).logs = s.logs ++ tail := by
  unfold jsPhase
  split
  · split
    · exact ⟨_, rfl⟩
    · exact ⟨_, rfl⟩
  · exact ⟨[], by simp⟩

/-! ## Claim C7: a missing binding library degrades gracefully -/

/-- Claim C7, confirmed: when the descriptor declares a native binding whose
resolved library location does not exist on disk, activation logs the
DLL-not-found warning, performs no native binding (the namespace part of the
state is exactly the initialized one), still proceeds to the entry-module
phase, and leaves an initialized (possibly empty) entry under the extension
name. -/
theorem C7_missing_dll (env : LoadEnv) (ext : TitanExtension) (s : LoadState)
    (ns : NativeSpec) (hnat : ext.titanJson.native = some ns) (hpath : ns.path ≠ "")
    (hfs : env.fsExists (resolveDllPath ns.path ext.path) = false) :
    loadExtension env ext s =
      jsPhase env ext ⟨tSetDefault s.t ext.name,
        (s.logs ++ [loadingMsg ext]) ++
          [s!"Warning: DLL not found: {resolveDllPath ns.path ext.path}"], s.libs⟩ ∧
    (∃ e, tGet (loadExtension env ext s).t ext.name = some e) ∧
    s!"Warning: DLL not found: {resolveDllPath ns.path ext.path}" ∈
      (loadExtension env ext s).logs := by
  have hred : loadExtension env ext s =
      jsPhase env ext ⟨tSetDefault s.t ext.name,
        (s.logs ++ [loadingMsg ext]) ++
          [s!"Warning: DLL not found: {resolveDllPath ns.path ext.path}"], s.libs⟩ := by
    unfold loadExtension bindPhase
    rw [hnat]
    simp only [bindNative, if_neg hpath, hfs, Bool.false_eq_true, if_false]
  refine ⟨hred, ?_, ?_⟩
  · rw [hred, jsPhase_t]
    exact tGet_tSetDefault_self s.t ext.name
  · rw [hred]
    obtain ⟨tail, htail⟩ := jsPhase_logs env ext ⟨tSetDefault s.t ext.name,
      (s.logs ++ [loadingMsg ext]) ++
        [s!"Warning: DLL not found: {resolveDllPath ns.path ext.path}"], s.libs⟩
    rw [htail]
    simp

/-- Claim C7, witness: a concrete extension whose declared library path is
absent on disk still ends activation with an initialized empty bag under its
name. -/
theorem C7_missing_dll_witness :
    tGet (loadExtension
      ⟨fun _ => false, fun _ => true, fun _ _ _ => true, fun _ => true⟩
      ⟨"myext", "/proj", ⟨some "myext", none, some ⟨"native/lib.so", none, none⟩⟩, none, true⟩
      ⟨[("log", .logFn []), ("native", .tbag [])], [], []⟩).t "myext" = some (.tbag []) := by
  have h := C7_missing_dll
    ⟨fun _ => false, fun _ => true, fun _ _ _ => true, fun _ => true⟩
    ⟨"myext", "/proj", ⟨some "myext", none, some ⟨"native/lib.so", none, none⟩⟩, none, true⟩
    ⟨[("log", .logFn []), ("native", .tbag [])], [], []⟩
    ⟨"native/lib.so", none, none⟩ rfl (by decide) rfl
  rw [h.1]
  rfl

/-! ## Claim C8: the serialization hooks -/

/-- When the manifest declares the serialize hook, the v8 step stores the
process-wide serialize operation under that key of the extension entry. -/
theorem bindV8_serialize (name : String) (vfs : List (String × V8FunctionDef))
    (s : LoadState) (e0 : TEntry) (h : tGet s.t name = some e0)
    (hser : vfs.any (fun p => p.fst = "serialize") = true) :
    ∃ e, tGet (bindV8 name vfs s).t name = some e ∧
      e.getProp "serialize" = some .v8serialize := by
  unfold bindV8
  by_cases hdes : vfs.any (fun p => decide (p.fst = "deserialize")) = true
  · simp only [hser, hdes, if_true]
    have h1 : tGet (tSetIn s.t name "serialize" .v8serialize) name =
        some (e0.setProp "serialize" .v8serialize) := tGet_tSetIn_self s.t name _ _ e0 h
    have h2 := tGet_tSetIn_self (tSetIn s.t name "serialize" .v8serialize) name
      "deserialize" .v8deserialize _ h1
    refine ⟨_, h2, ?_⟩
    rw [getProp_setProp_ne _ _ _ _ (by decide)]
    exact getProp_setProp_self e0 _ _
  · simp only [hser, hdes, if_true, Bool.false_eq_true, if_false]
    exact ⟨_, tGet_tSetIn_self s.t name _ _ e0 h, getProp_setProp_self e0 _ _⟩

/-- When the manifest declares the deserialize hook, the v8 step stores the
process-wide deserialize operation under that key of the extension entry. -/
theorem bindV8_deserialize (name : String) (vfs : List (String × V8FunctionDef))
    (s : LoadState) (e0 : TEntry) (h : tGet s.t name = some e0)
    (hdes : vfs.any (fun p => p.fst = "deserialize") = true) :
    ∃ e, tGet (bindV8 name vfs s).t name = some e ∧
      e.getProp "deserialize" = some .v8deserialize := by
  unfold bindV8
  by_cases hser : vfs.any (fun p => decide (p.fst = "serialize")) = true
  · simp only [hser, hdes, if_true]
    have h1 : tGet (tSetIn s.t name "serialize" .v8serialize) name =
        some (e0.setProp "serialize" .v8serialize) := tGet_tSetIn_self s.t name _ _ e0 h
    have h2 := tGet_tSetIn_self (tSetIn s.t name "serialize" .v8serialize) name
      "deserialize" .v8deserialize _ h1
    exact ⟨_, h2, getProp_setProp_self _ _ _⟩
  · simp only [hser, hdes, if_true, Bool.false_eq_true, if_false]
    exact ⟨_, tGet_tSetIn_self s.t name _ _ e0 h, getProp_setProp_self e0 _ _⟩

/-- The namespace part of the successful native-binding branch. -/
theorem bindNative_success_t (env : LoadEnv) (ext : TitanExtension) (ns : NativeSpec)
    (s0 : LoadState) (hpath : ns.path ≠ "")
    (hfs : env.fsExists (resolveDllPath ns.path ext.path) = true)
    (hko : env.koffiLoadOk (resolveDllPath ns.path ext.path) = true) :
    (bindNative env ext (some ns) s0).t =
      (bindV8Opt ext.name ns.v8_functions (bindFnsOpt env ext.name ns.functions
        ⟨s0.t, s0.logs, s0.libs ++ [resolveDllPath ns.path ext.path]⟩)).t := by
  simp only [bindNative, if_neg hpath, hfs, hko, if_true]

/-- Claim C8, amended: when the binding library exists on disk and loads
successfully, a manifest-declared serialize or deserialize hook is bound in
the extension entry directly to the corresponding process-wide v8
serialization operation, whatever the per-function binding oracle does
elsewhere; without a present and loadable binding library the hook step is
never reached. -/
theorem C8_v8_hooks_amended (env : LoadEnv) (ext : TitanExtension) (s : LoadState)
    (ns : NativeSpec) (vfs : List (String × V8FunctionDef))
    (hnat : ext.titanJson.native = some ns) (hpath : ns.path ≠ "")
    (hfs : env.fsExists (resolveDllPath ns.path ext.path) = true)
    (hko : env.koffiLoadOk (resolveDllPath ns.path ext.path) = true)
    (hvfs : ns.v8_functions = some vfs) :
    (vfs.any (fun p => p.fst = "serialize") = true →
      ∃ e, tGet (loadExtension env ext s).t ext.name = some e ∧
        e.getProp "serialize" = some .v8serialize) ∧
    (vfs.any (fun p => p.fst = "deserialize") = true →
      ∃ e, tGet (loadExtension env ext s).t ext.name = some e ∧
        e.getProp "deserialize" = some .v8deserialize) := by
  have ht : tGet (loadExtension env ext s).t ext.name =
      tGet (bindV8 ext.name vfs (bindFnsOpt env ext.name ns.functions
        ⟨tSetDefault s.t ext.name, (s.logs ++ [loadingMsg ext]),
          s.libs ++ [resolveDllPath ns.path ext.path]⟩)).t ext.name := by
    unfold loadExtension
    rw [jsPhase_t]
    unfold bindPhase
    rw [hnat, bindNative_success_t env ext ns _ hpath hfs hko, hvfs]
    rfl
  obtain ⟨e1, he1⟩ := tGet_tSetDefault_self s.t ext.name
  obtain ⟨e2, he2, _⟩ := (bindFnsOpt_frame env ext.name ns.functions
    ⟨tSetDefault s.t ext.name, (s.logs ++ [loadingMsg ext]),
      s.libs ++ [resolveDllPath ns.path ext.path]⟩).2 e1 he1
  constructor
  · intro hser
    obtain ⟨e, he, hv⟩ := bindV8_serialize ext.name vfs _ e2 he2 hser
    exact ⟨e, by rw [ht]; exact he, hv⟩
  · intro hdes
    obtain ⟨e, he, hv⟩ := bindV8_deserialize ext.name vfs _ e2 he2 hdes
    exact ⟨e, by rw [ht]; exact he, hv⟩

/-- Claim C8, witness: a concrete extension with a present, loadable library
and a declared serialize hook ends with the v8 serialize operation bound in
its entry. -/
theorem C8_v8_hooks_witness :
    ∃ e, tGet (loadExtension
      ⟨fun _ => true, fun _ => true, fun _ _ _ => false, fun _ => true⟩
      ⟨"ser", "/proj", ⟨some "ser", none, some ⟨"lib.so", none, some [("serialize", ⟨"v8_ser"⟩)]⟩⟩, none, false⟩
      ⟨[("log", .logFn []), ("native", .tbag [])], [], []⟩).t "ser" = some e ∧
      e.getProp "serialize" = some .v8serialize :=
  (C8_v8_hooks_amended
    ⟨fun _ => true, fun _ => true, fun _ _ _ => false, fun _ => true⟩
    ⟨"ser", "/proj", ⟨some "ser", none, some ⟨"lib.so", none, some [("serialize", ⟨"v8_ser"⟩)]⟩⟩, none, false⟩
    ⟨[("log", .logFn []), ("native", .tbag [])], [], []⟩
    ⟨"lib.so", none, some [("serialize", ⟨"v8_ser"⟩)]⟩ [("serialize", ⟨"v8_ser"⟩)]
    rfl (by decide) rfl rfl rfl).1 (by decide)

/-- Claim C8, counterexample: the hook binding does depend on the binding
library existing on disk.  A concrete extension declaring the serialize hook
whose library path does not exist ends activation with an empty entry bag, so
no serialize key is bound. -/
theorem C8_v8_hooks_counterexample :
    tGet (loadExtension
      ⟨fun _ => false, fun _ => true, fun _ _ _ => true, fun _ => true⟩
      ⟨"ser2", "/proj", ⟨some "ser2", none, some ⟨"lib.so", none, some [("serialize", ⟨"v8_ser"⟩)]⟩⟩, none, true⟩
      ⟨[("log", .logFn []), ("native", .tbag [])], [], []⟩).t "ser2" = some (.tbag []) ∧
    TEntry.getProp (.tbag []) "serialize" = none := by
  exact ⟨rfl, rfl⟩

/-! ## Claim C9: per-function binding failure -/

/-- The functions-binding loop only appends to the log. -/
theorem bindFunctions_logs (env : LoadEnv) (name : String)
    (fns : List (String × NativeFunctionDef)) (s : LoadState) :
    ∃ tail, (bindFunctions env name fns s).logs = s.logs ++ tail := by
  induction fns generalizing s with
  | nil => exact ⟨[], by simp [bindFunctions]⟩
  | cons fd rest ih =>
    by_cases hb : env.bindOk fd.snd.symbol (translateType fd.snd.result)
        (fd.snd.parameters.map translateType) = true
    · have step : bindFunctions env name (fd :: rest) s =
          bindFunctions env name rest
            ⟨tSetIn s.t name fd.fst (.koffiFn fd.snd.symbol (translateType fd.snd.result)
              (fd.snd.parameters.map translateType)), s.logs, s.libs⟩ := by
        simp [bindFunctions, hb]
      rw [step]
      exact ih _
    · have step : bindFunctions env name (fd :: rest) s =
          bindFunctions env name rest
            ⟨s.t, s.logs ++ [s!"Warning: Failed to load native function {fd.fst}: <error>"], s.libs⟩ := by
        simp [bindFunctions, hb]
      rw [step]
      obtain ⟨tail, htail⟩ := ih
        ⟨s.t, s.logs ++ [s!"Warning: Failed to load native function {fd.fst}: <error>"], s.libs⟩
      refine ⟨[s!"Warning: Failed to load native function {fd.fst}: <error>"] ++ tail, ?_⟩
      rw [htail]
      simp

/-- The v8-hook step never touches the log. -/
theorem bindV8Opt_logs (name : String) (ovfs : Option (List (String × V8FunctionDef)))
    (s : LoadState) : (bindV8Opt name ovfs s).logs = s.logs := by
  cases ovfs with
  | none => rfl
  | some vfs =>
    show (bindV8 name vfs s).logs = s.logs
    unfold bindV8
    by_cases h1 : vfs.any (fun p => decide (p.fst = "serialize")) = true <;>
      by_cases h2 : vfs.any (fun p => decide (p.fst = "deserialize")) = true <;>
        simp [h1, h2]

/-- The v8-hook step preserves every entry property other than the two hook
keys. -/
theorem bindV8Opt_getProp_pres (name : String)
    (ovfs : Option (List (String × V8FunctionDef))) (s : LoadState) (e0 : TEntry)
    (h : tGet s.t name = some e0) :
    ∃ e, tGet (bindV8Opt name ovfs s).t name = some e ∧
      ∀ k, k ≠ "serialize" → k ≠ "deserialize" → e.getProp k = e0.getProp k := by
  cases ovfs with
  | none => exact ⟨e0, h, fun _ _ _ => rfl⟩
  | some vfs =>
    show ∃ e, tGet (bindV8 name vfs s).t name = some e ∧ _
    unfold bindV8
    by_cases h1 : vfs.any (fun p => decide (p.fst = "serialize")) = true <;>
      by_cases h2 : vfs.any (fun p => decide (p.fst = "deserialize")) = true <;>
        simp only [h1, h2, if_true, Bool.false_eq_true, if_false]
    · have g1 : tGet (tSetIn s.t name "serialize" .v8serialize) name =
          some (e0.setProp "serialize" .v8serialize) := tGet_tSetIn_self s.t name _ _ e0 h
      have g2 := tGet_tSetIn_self (tSetIn s.t name "serialize" .v8serialize) name
        "deserialize" .v8deserialize _ g1
      refine ⟨_, g2, fun k hk1 hk2 => ?_⟩
      rw [getProp_setProp_ne _ _ _ _ hk2, getProp_setProp_ne _ _ _ _ hk1]
    · refine ⟨_, tGet_tSetIn_self s.t name _ _ e0 h, fun k hk1 hk2 => ?_⟩
      rw [getProp_setProp_ne _ _ _ _ hk1]
    · refine ⟨_, tGet_tSetIn_self s.t name _ _ e0 h, fun k hk1 hk2 => ?_⟩
      rw [getProp_setProp_ne _ _ _ _ hk2]
    · exact ⟨e0, h, fun _ _ _ => rfl⟩

/-- The log part of the successful native-binding branch. -/
theorem bindNative_success_logs (env : LoadEnv) (ext : TitanExtension) (ns : NativeSpec)
    (s0 : LoadState) (hpath : ns.path ≠ "")
    (hfs : env.fsExists (resolveDllPath ns.path ext.path) = true)
    (hko : env.koffiLoadOk (resolveDllPath ns.path ext.path) = true) :
    (bindNative env ext (some ns) s0).logs =
      (bindV8Opt ext.name ns.v8_functions (bindFnsOpt env ext.name ns.functions
        ⟨s0.t, s0.logs, s0.libs ++ [resolveDllPath ns.path ext.path]⟩)).logs ++
        [s!"Loaded native: {resolveDllPath ns.path ext.path}"] := by
  simp only [bindNative, if_neg hpath, hfs, hko, if_true]

/-- Full characterization of the entry bag produced by the functions-binding
loop: a successfully bound function holds its koffi binding, a failing one
leaves the previous property value and logs a warning, and keys outside the
declared table are untouched. -/
theorem bindFunctions_spec (env : LoadEnv) (name : String)
    (fns : List (String × NativeFunctionDef)) (s : LoadState) (e0 : TEntry)
    (h : tGet s.t name = some e0) (hnodup : (fns.map Prod.fst).Nodup) :
    ∃ e, tGet (bindFunctions env name fns s).t name = some e ∧
      (∀ k, k ∉ fns.map Prod.fst → e.getProp k = e0.getProp k) ∧
      (∀ fd ∈ fns,
        (env.bindOk fd.snd.symbol (translateType fd.snd.result)
            (fd.snd.parameters.map translateType) = true →
          e.getProp fd.fst = some (.koffiFn fd.snd.symbol (translateType fd.snd.result)
            (fd.snd.parameters.map translateType))) ∧
        (env.bindOk fd.snd.symbol (translateType fd.snd.result)
            (fd.snd.parameters.map translateType) = false →
          e.getProp fd.fst = e0.getProp fd.fst ∧
          s!"Warning: Failed to load native function {fd.fst}: <error>"
            ∈ (bindFunctions env name fns s).logs)) := by
  induction fns generalizing s e0 with
  | nil =>
    refine ⟨e0, h, fun _ _ => rfl, fun fd hfd => absurd hfd (List.not_mem_nil fd)⟩
  | cons fd rest ih =>
    have hnotin : fd.fst ∉ rest.map Prod.fst := (List.nodup_cons.mp (by simpa using hnodup)).1
    have hnodup' : (rest.map Prod.fst).Nodup := (List.nodup_cons.mp (by simpa using hnodup)).2
    by_cases hb : env.bindOk fd.snd.symbol (translateType fd.snd.result)
        (fd.snd.parameters.map translateType) = true
    · have step : bindFunctions env name (fd :: rest) s =
          bindFunctions env name rest
            ⟨tSetIn s.t name fd.fst (.koffiFn fd.snd.symbol (translateType fd.snd.result)
              (fd.snd.parameters.map translateType)), s.logs, s.libs⟩ := by
        simp [bindFunctions, hb]
      set s' : LoadState := ⟨tSetIn s.t name fd.fst (.koffiFn fd.snd.symbol
        (translateType fd.snd.result) (fd.snd.parameters.map translateType)), s.logs, s.libs⟩ with hs'
      have h1 : tGet s'.t name = some (e0.setProp fd.fst (.koffiFn fd.snd.symbol
          (translateType fd.snd.result) (fd.snd.parameters.map translateType))) :=
        tGet_tSetIn_self s.t name _ _ e0 h
      obtain ⟨e, he, hout, hall⟩ := ih s' _ h1 hnodup'
      rw [step]
      refine ⟨e, he, fun k hk => ?_, fun fd' hfd' => ?_⟩
      · have hk1 : k ≠ fd.fst := fun hkk => hk (by simp [hkk])
        have hk2 : k ∉ rest.map Prod.fst := fun hkk => hk (by simp [hkk])
        rw [hout k hk2, getProp_setProp_ne _ _ _ _ hk1]
      · rcases List.mem_cons.mp hfd' with rfl | hmem
        · refine ⟨fun _ => ?_, fun hfail => absurd hb (by rw [hfail]; exact Bool.false_ne_true)⟩
          rw [hout fd'.fst hnotin]
          exact getProp_setProp_self e0 _ _
        · have hne : fd'.fst ≠ fd.fst := fun hkk => hnotin (hkk ▸ List.mem_map_of_mem Prod.fst hmem)
          refine ⟨(hall fd' hmem).1, fun hfail => ?_⟩
          obtain ⟨hval, hlog⟩ := (hall fd' hmem).2 hfail
          rw [hval, getProp_setProp_ne _ _ _ _ hne]
          exact ⟨rfl, hlog⟩
    · have hbf : env.bindOk fd.snd.symbol (translateType fd.snd.result)
          (fd.snd.parameters.map translateType) = false := by
        exact Bool.not_eq_true _ ▸ (Bool.eq_false_iff.mpr (fun hc => hb hc))
      have step : bindFunctions env name (fd :: rest) s =
          bindFunctions env name rest
            ⟨s.t, s.logs ++ [s!"Warning: Failed to load native function {fd.fst}: <error>"], s.libs⟩ := by
        simp [bindFunctions, hb]
      set s' : LoadState := ⟨s.t,
        s.logs ++ [s!"Warning: Failed to load native function {fd.fst}: <error>"], s.libs⟩ with hs'
      obtain ⟨e, he, hout, hall⟩ := ih s' e0 h hnodup'
      rw [step]
      refine ⟨e, he, fun k hk => hout k (fun hkk => hk (by simp [hkk])), fun fd' hfd' => ?_⟩
      rcases List.mem_cons.mp hfd' with rfl | hmem
      · refine ⟨fun hok => absurd hok (by rw [hbf]; exact Bool.false_ne_true), fun _ => ?_⟩
        refine ⟨hout fd'.fst hnotin, ?_⟩
        obtain ⟨tail, htail⟩ := bindFunctions_logs env name rest s'
        rw [htail]
        simp [hs']
      · exact hall fd' hmem

/-- Claim C9, confirmed: with a present and loadable binding library, a
failing binding request for one declared function leaves exactly that
function absent from a freshly initialized extension entry and logs a
warning, while every other declared function with a successful request is
bound; neither the extension nor the run fails (the run result is a plain
state).  Function names are assumed distinct and distinct from the two
reserved hook keys, which the hook step would overwrite. -/
theorem C9_per_function_failure (env : LoadEnv) (ext : TitanExtension) (s : LoadState)
    (ns : NativeSpec) (fns : List (String × NativeFunctionDef))
    (hnat : ext.titanJson.native = some ns) (hpath : ns.path ≠ "")
    (hfs : env.fsExists (resolveDllPath ns.path ext.path) = true)
    (hko : env.koffiLoadOk (resolveDllPath ns.path ext.path) = true)
    (hfns : ns.functions = some fns)
    (hfresh : tGet s.t ext.name = none)
    (hnodup : (fns.map Prod.fst).Nodup)
    (hnames : ∀ fd ∈ fns, fd.fst ≠ "serialize" ∧ fd.fst ≠ "deserialize") :
    ∃ e, tGet (loadExtension env ext s).t ext.name = some e ∧
      ∀ fd ∈ fns,
        (env.bindOk fd.snd.symbol (translateType fd.snd.result)
            (fd.snd.parameters.map translateType) = true →
          e.getProp fd.fst = some (.koffiFn fd.snd.symbol (translateType fd.snd.result)
            (fd.snd.parameters.map translateType))) ∧
        (env.bindOk fd.snd.symbol (translateType fd.snd.result)
            (fd.snd.parameters.map translateType) = false →
          e.getProp fd.fst = none ∧
          s!"Warning: Failed to load native function {fd.fst}: <error>"
            ∈ (loadExtension env ext s).logs) := by
  set s1 : LoadState := ⟨tSetDefault s.t ext.name, s.logs ++ [loadingMsg ext],
    s.libs ++ [resolveDllPath ns.path ext.path]⟩ with hs1
  have hB : bindFnsOpt env ext.name ns.functions s1 = bindFunctions env ext.name fns s1 := by
    rw [hfns]
    rfl
  have ht : tGet (loadExtension env ext s).t ext.name =
      tGet (bindV8Opt ext.name ns.v8_functions (bindFunctions env ext.name fns s1)).t ext.name := by
    unfold loadExtension
    rw [jsPhase_t]
    unfold bindPhase
    rw [hnat, bindNative_success_t env ext ns _ hpath hfs hko, hB]
  have hbase : tGet s1.t ext.name = some (.tbag []) := by
    show tGet (tSetDefault s.t ext.name) ext.name = some (.tbag [])
    unfold tSetDefault
    rw [hfresh]
    exact tGet_tSet_self s.t ext.name _
  obtain ⟨e2, he2, hout2, hall2⟩ := bindFunctions_spec env ext.name fns s1 (.tbag []) hbase hnodup
  obtain ⟨e3, he3, hpres3⟩ := bindV8Opt_getProp_pres ext.name ns.v8_functions _ e2 he2
  have hlogsub : ∀ m, m ∈ (bindFunctions env ext.name fns s1).logs →
      m ∈ (loadExtension env ext s).logs := by
    intro m hm
    obtain ⟨tail, htail⟩ := jsPhase_logs env ext (bindPhase env ext s)
    show m ∈ (jsPhase env ext (bindPhase env ext s)).logs
    rw [htail]
    refine List.mem_append_left _ ?_
    show m ∈ (bindPhase env ext s).logs
    unfold bindPhase
    rw [hnat, bindNative_success_logs env ext ns _ hpath hfs hko, bindV8Opt_logs, hB]
    exact List.mem_append_left _ hm
  refine ⟨e3, by rw [ht]; exact he3, fun fd hfd => ?_⟩
  have hval : e3.getProp fd.fst = e2.getProp fd.fst :=
    hpres3 fd.fst (hnames fd hfd).1 (hnames fd hfd).2
  refine ⟨fun hok => ?_, fun hfail => ?_⟩
  · rw [hval]
    exact (hall2 fd hfd).1 hok
  · obtain ⟨hv, hlog⟩ := (hall2 fd hfd).2 hfail
    refine ⟨by rw [hval, hv]; rfl, hlogsub _ hlog⟩

/-- Claim C9, witness: a concrete extension declaring two functions, of which
one binding request fails, ends with the failing function absent and the
other bound. -/
theorem C9_per_function_failure_witness :
    ∃ e, tGet (loadExtension
      ⟨fun _ => true, fun _ => true, fun sym _ _ => !(sym == "bad_sym"), fun _ => true⟩
      ⟨"m", "/proj", ⟨some "m", none, some ⟨"lib.so",
        some [("good", ⟨"good_sym", ["string"], "f64"⟩), ("bad", ⟨"bad_sym", [], "void"⟩)],
        none⟩⟩, none, false⟩
      ⟨[("log", .logFn []), ("native", .tbag [])], [], []⟩).t "m" = some e ∧
      e.getProp "good" = some (.koffiFn "good_sym" (.vstr "double") [.vstr "str"]) ∧
      e.getProp "bad" = none := by
  obtain ⟨e, he, hall⟩ := C9_per_function_failure
    ⟨fun _ => true, fun _ => true, fun sym _ _ => !(sym == "bad_sym"), fun _ => true⟩
    ⟨"m", "/proj", ⟨some "m", none, some ⟨"lib.so",
      some [("good", ⟨"good_sym", ["string"], "f64"⟩), ("bad", ⟨"bad_sym", [], "void"⟩)],
      none⟩⟩, none, false⟩
    ⟨[("log", .logFn []), ("native", .tbag [])], [], []⟩
    ⟨"lib.so",
      some [("good", ⟨"good_sym", ["string"], "f64"⟩), ("bad", ⟨"bad_sym", [], "void"⟩)], none⟩
    [("good", ⟨"good_sym", ["string"], "f64"⟩), ("bad", ⟨"bad_sym", [], "void"⟩)]
    rfl (by decide) rfl rfl rfl rfl (by decide) (by decide)
  refine ⟨e, he, ?_, ?_⟩
  · have h1 := (hall ("good", ⟨"good_sym", ["string"], "f64"⟩) (by decide)).1 rfl
    exact h1
  · have h2 := (hall ("bad", ⟨"bad_sym", [], "void"⟩) (by decide)).2 rfl
    exact h2.1

/-! ## Claims C3 and C4: discovery -/

/-- Membership reading of the found.has test. -/
theorem hasName_iff (st : Found) (n : String) :
    st.hasName n = true ↔ n ∈ st.exts.map TitanExtension.name := by
  simp [Found.hasName, List.any_eq_true, List.mem_map]

/-- The scan relation is reflexive. -/
theorem ScanStep_refl (st : Found) : ScanStep st st :=
  ⟨[], by simp, fun e he => absurd he (List.not_mem_nil e), fun h => h, ⟨[], by simp⟩⟩

/-- The scan relation composes. -/
theorem ScanStep_trans {a b c : Found} (h1 : ScanStep a b) (h2 : ScanStep b c) :
    ScanStep a c := by
  obtain ⟨Δ1, he1, hp1, hn1, lt1, hl1⟩ := h1
  obtain ⟨Δ2, he2, hp2, hn2, lt2, hl2⟩ := h2
  refine ⟨Δ1 ++ Δ2, by rw [he2, he1, List.append_assoc], fun e he => ?_, fun h => hn2 (hn1 h),
    ⟨lt1 ++ lt2, by rw [hl2, hl1, List.append_assoc]⟩⟩
  rcases List.mem_append.mp he with h | h
  · exact hp1 e h
  · obtain ⟨q1, q2, q3, q4⟩ := hp2 e h
    refine ⟨q1, q2, q3, fun hmem => q4 ?_⟩
    rw [he1, List.map_append]
    exact List.mem_append_left _ hmem

/-- The titan.json check of one candidate is a scan step. -/
theorem checkTitan_step (full : String) (mfst : ManifestState) (pj : Option PackageJson)
    (st : Found) : ScanStep st (checkTitan full mfst pj st) := by
  cases mfst with
  | absent => exact ScanStep_refl st
  | invalid =>
    refine ⟨[], ?_, fun e he => absurd he (List.not_mem_nil e), fun h => ?_, ⟨_, rfl⟩⟩
    · simp [checkTitan]
    · simp only [checkTitan]
      exact h
  | parsed tj =>
    have hred : checkTitan full (.parsed tj) pj st =
        (match tj.name with
         | none => st
         | some n =>
           if n ≠ "" ∧ ¬ st.hasName n then
             ⟨st.exts ++ [⟨n, full, tj, pj, false⟩], st.logs ++ [s!"Found extension: {n}"]⟩
           else st) := rfl
    cases hn : tj.name with
    | none =>
      rw [hred, hn]
      exact ScanStep_refl st
    | some n =>
      have hred2 : checkTitan full (.parsed tj) pj st =
          (if n ≠ "" ∧ ¬ st.hasName n then
            ⟨st.exts ++ [⟨n, full, tj, pj, false⟩], st.logs ++ [s!"Found extension: {n}"]⟩
          else st) := by
        rw [hred, hn]
      rw [hred2]
      by_cases hcond : n ≠ "" ∧ ¬ st.hasName n = true
      · rw [if_pos hcond]
        have hnotin : n ∉ st.exts.map TitanExtension.name := fun hmem =>
          hcond.2 ((hasName_iff st n).mpr hmem)
        refine ⟨[⟨n, full, tj, pj, false⟩], rfl, fun e he => ?_, fun h => ?_, ⟨_, rfl⟩⟩
        · rw [List.mem_singleton] at he
          subst he
          exact ⟨rfl, hn, hcond.1, hnotin⟩
        · rw [List.map_append, List.nodup_append]
          have hdisj : ∀ x ∈ st.exts, ¬ x.name = n := fun x hx hxn =>
            hnotin (hxn ▸ List.mem_map_of_mem TitanExtension.name hx)
          exact ⟨h, List.nodup_singleton n, by simpa using hdisj⟩
      · rw [if_neg hcond]
        exact ScanStep_refl st

/-- The node_modules walk is a scan step, for every fuel. -/
theorem scanNM_step (f : Nat) : ∀ (l : List NMEntry) (d : String) (st : Found),
    ScanStep st (scanNM f l d st) := by
  induction f with
  | zero => intro l d st; exact ScanStep_refl st
  | succ f ih =>
    intro l d st
    cases l with
    | nil => exact ScanStep_refl st
    | cons e rest =>
      cases e with
      | file nm => exact ih rest d st
      | dir nm mfst pj sub =>
        by_cases hh : strStarts nm '.' = true
        · have hred : scanNM (f + 1) (.dir nm mfst pj sub :: rest) d st = scanNM f rest d st := by
            simp [scanNM, hh]
          rw [hred]
          exact ih rest d st
        · by_cases hs : strStarts nm '@' = true
          · have hred : scanNM (f + 1) (.dir nm mfst pj sub :: rest) d st =
                scanNM f rest d (scanNM f sub (d ++ "/" ++ nm) st) := by
              simp [scanNM, hh, hs]
            rw [hred]
            exact ScanStep_trans (ih sub (d ++ "/" ++ nm) st) (ih rest d _)
          · cases hfind : findNM sub with
            | some nmsub =>
              have hred : scanNM (f + 1) (.dir nm mfst pj sub :: rest) d st =
                  scanNM f rest d (scanNM f nmsub (d ++ "/" ++ nm ++ "/node_modules")
                    (checkTitan (d ++ "/" ++ nm) mfst pj st)) := by
                simp [scanNM, hh, hs, hfind]
              rw [hred]
              exact ScanStep_trans (checkTitan_step _ mfst pj st)
                (ScanStep_trans (ih nmsub _ _) (ih rest d _))
            | none =>
              have hred : scanNM (f + 1) (.dir nm mfst pj sub :: rest) d st =
                  scanNM f rest d (checkTitan (d ++ "/" ++ nm) mfst pj st) := by
                simp [scanNM, hh, hs, hfind]
              rw [hred]
              exact ScanStep_trans (checkTitan_step _ mfst pj st) (ih rest d _)

/-- The whole discovery run is a scan step away from its local-project
state. -/
theorem discover_step (rootDir : String) (fs : RootFs) :
    ScanStep (rootState rootDir fs) (discoverExtensions rootDir fs) := by
  unfold discoverExtensions
  cases fs.nodeModules with
  | none => exact ScanStep_refl _
  | some l => exact scanNM_step _ l _ _

/-- Shape of the local-project state: empty, or exactly the one local entry
built from a parsed root manifest with truthy name. -/
theorem rootState_cases (rootDir : String) (fs : RootFs) :
    (rootState rootDir fs).exts = [] ∨
    (∃ tj n, fs.mfst = .parsed tj ∧ tj.name = some n ∧ n ≠ "" ∧
      (rootState rootDir fs).exts = [⟨n, rootDir, tj, fs.pkgJson, true⟩]) := by
  cases hm : fs.mfst with
  | absent => exact Or.inl (by simp [rootState, hm])
  | invalid => exact Or.inl (by simp [rootState, hm])
  | parsed tj =>
    have hred : rootState rootDir fs =
        (match tj.name with
         | none => ⟨[], []⟩
         | some n =>
           if n ≠ "" then
             ⟨[⟨n, rootDir, tj, fs.pkgJson, true⟩], [s!"Found local extension: {n}"]⟩
           else ⟨[], []⟩) := by
      unfold rootState
      rw [hm]
    rw [hred]
    cases hn : tj.name with
    | none => exact Or.inl rfl
    | some n =>
      by_cases hne : n ≠ ""
      · exact Or.inr ⟨tj, n, rfl, hn, hne, by simp [hne]⟩
      · exact Or.inl (by simp [hne])

/-- Claim C4, confirmed: every discovery run returns at most one local entry,
never two entries of the same name, and when the root manifest parses with a
truthy name the returned set holds an entry of that name which is the local
one, any same-named dependency-tree extension having been refused. -/
theorem C4_discovery_invariants (rootDir : String) (fs : RootFs) :
    ((discoverExtensions rootDir fs).exts.countP (fun e => e.isLocal) ≤ 1) ∧
    ((discoverExtensions rootDir fs).exts.map TitanExtension.name).Nodup ∧
    (∀ tj n, fs.mfst = .parsed tj → tj.name = some n → n ≠ "" →
      (∃ e ∈ (discoverExtensions rootDir fs).exts, e.name = n ∧ e.isLocal = true) ∧
      (∀ e ∈ (discoverExtensions rootDir fs).exts, e.name = n → e.isLocal = true)) := by
  obtain ⟨Δ, hexts, hprops, hnodup, _⟩ := discover_step rootDir fs
  have hzero : Δ.countP (fun e => e.isLocal) = 0 :=
    List.countP_eq_zero.mpr (fun e he => by simp [(hprops e he).1])
  refine ⟨?_, ?_, fun tj n hm hn hne => ?_⟩
  · rw [hexts, List.countP_append, hzero]
    rcases rootState_cases rootDir fs with h0 | ⟨tj, m, _, _, _, h1⟩
    · rw [h0]
      simp
    · rw [h1]
      simp [List.countP_cons]
  · apply hnodup
    rcases rootState_cases rootDir fs with h0 | ⟨tj, m, _, _, _, h1⟩
    · rw [h0]
      exact List.nodup_nil
    · rw [h1]
      simp
  · have hroot : (rootState rootDir fs).exts = [⟨n, rootDir, tj, fs.pkgJson, true⟩] := by
      simp [rootState, hm, hn, hne]
    constructor
    · refine ⟨⟨n, rootDir, tj, fs.pkgJson, true⟩, ?_, rfl, rfl⟩
      rw [hexts, hroot]
      exact List.mem_append_left _ (List.mem_singleton_self _)
    · intro e he hen
      rw [hexts] at he
      rcases List.mem_append.mp he with h | h
      · rw [hroot, List.mem_singleton] at h
        rw [h]
      · exfalso
        have := (hprops e h).2.2.2
        rw [hroot] at this
        simp only [List.map_cons, List.map_nil] at this
        exact this (by simp [hen])

/-- Claim C4, witness: a root manifest named X and a dependency-tree package
also named X yield exactly one X, the local one. -/
theorem C4_discovery_invariants_witness :
    (∃ e ∈ (discoverExtensions "/p"
      ⟨.parsed ⟨some "X", none, none⟩, none,
        some [.dir "xpkg" (.parsed ⟨some "X", none, none⟩) none []]⟩).exts,
      e.name = "X" ∧ e.isLocal = true) ∧
    (∀ e ∈ (discoverExtensions "/p"
      ⟨.parsed ⟨some "X", none, none⟩, none,
        some [.dir "xpkg" (.parsed ⟨some "X", none, none⟩) none []]⟩).exts,
      e.name = "X" → e.isLocal = true) :=
  (C4_discovery_invariants "/p"
    ⟨.parsed ⟨some "X", none, none⟩, none,
      some [.dir "xpkg" (.parsed ⟨some "X", none, none⟩) none []]⟩).2.2
    ⟨some "X", none, none⟩ "X" rfl rfl (by decide)

/-- A message already logged before a scan is still in the log after it. -/
theorem scanNM_logs_mono (f : Nat) (l : List NMEntry) (d : String) (st : Found)
    (w : String) (hw : w ∈ st.logs) : w ∈ (scanNM f l d st).logs := by
  obtain ⟨Δ, _, _, _, ltail, hlogs⟩ := scanNM_step f l d st
  rw [hlogs]
  exact List.mem_append_left _ hw

/-- Every invalid-manifest warning of the walk ends up in the log of the
scan, whatever state the scan starts from. -/
theorem invalidWarns_mem (f : Nat) : ∀ (l : List NMEntry) (d : String) (st : Found)
    (w : String), w ∈ invalidWarns f l d → w ∈ (scanNM f l d st).logs := by
  induction f with
  | zero =>
    intro l d st w hw
    exact absurd hw (List.not_mem_nil w)
  | succ f ih =>
    intro l d st w hw
    cases l with
    | nil => exact absurd hw (List.not_mem_nil w)
    | cons e rest =>
      cases e with
      | file nm => exact ih rest d st w hw
      | dir nm mfst pj sub =>
        by_cases hh : strStarts nm '.'
        · have h1 : invalidWarns (f + 1) (.dir nm mfst pj sub :: rest) d =
              invalidWarns f rest d := by
            simp [invalidWarns, hh]
          have h2 : scanNM (f + 1) (.dir nm mfst pj sub :: rest) d st =
              scanNM f rest d st := by
            simp [scanNM, hh]
          rw [h1] at hw
          rw [h2]
          exact ih rest d st w hw
        · by_cases hs : strStarts nm '@'
          · have h1 : invalidWarns (f + 1) (.dir nm mfst pj sub :: rest) d =
                invalidWarns f sub (d ++ "/" ++ nm) ++ invalidWarns f rest d := by
              simp [invalidWarns, hh, hs]
            have h2 : scanNM (f + 1) (.dir nm mfst pj sub :: rest) d st =
                scanNM f rest d (scanNM f sub (d ++ "/" ++ nm) st) := by
              simp [scanNM, hh, hs]
            rw [h1] at hw
            rw [h2]
            rcases List.mem_append.mp hw with h | h
            · exact scanNM_logs_mono f rest d _ w (ih sub (d ++ "/" ++ nm) st w h)
            · exact ih rest d _ w h
          · cases hfind : findNM sub with
            | some nmsub =>
              have h1 : invalidWarns (f + 1) (.dir nm mfst pj sub :: rest) d =
                  warnOf (d ++ "/" ++ nm) mfst ++
                    (invalidWarns f nmsub (d ++ "/" ++ nm ++ "/node_modules") ++
                      invalidWarns f rest d) := by
                simp [invalidWarns, hh, hs, hfind]
              have h2 : scanNM (f + 1) (.dir nm mfst pj sub :: rest) d st =
                  scanNM f rest d (scanNM f nmsub (d ++ "/" ++ nm ++ "/node_modules")
                    (checkTitan (d ++ "/" ++ nm) mfst pj st)) := by
                simp [scanNM, hh, hs, hfind]
              rw [h1] at hw
              rw [h2]
              rcases List.mem_append.mp hw with h | h
              · have hwc : w ∈ (checkTitan (d ++ "/" ++ nm) mfst pj st).logs := by
                  cases mfst with
                  | absent => exact absurd h (List.not_mem_nil w)
                  | parsed tj => exact absurd h (List.not_mem_nil w)
                  | invalid =>
                    have hw' := List.mem_singleton.mp h
                    subst hw'
                    simp [checkTitan, warnOf]
                exact scanNM_logs_mono f rest d _ w (scanNM_logs_mono f nmsub _ _ w hwc)
              · rcases List.mem_append.mp h with h' | h'
                · exact scanNM_logs_mono f rest d _ w (ih nmsub _ _ w h')
                · exact ih rest d _ w h'
            | none =>
              have h1 : invalidWarns (f + 1) (.dir nm mfst pj sub :: rest) d =
                  warnOf (d ++ "/" ++ nm) mfst ++ invalidWarns f rest d := by
                simp [invalidWarns, hh, hs, hfind]
              have h2 : scanNM (f + 1) (.dir nm mfst pj sub :: rest) d st =
                  scanNM f rest d (checkTitan (d ++ "/" ++ nm) mfst pj st) := by
                simp [scanNM, hh, hs, hfind]
              rw [h1] at hw
              rw [h2]
              rcases List.mem_append.mp hw with h | h
              · have hwc : w ∈ (checkTitan (d ++ "/" ++ nm) mfst pj st).logs := by
                  cases mfst with
                  | absent => exact absurd h (List.not_mem_nil w)
                  | parsed tj => exact absurd h (List.not_mem_nil w)
                  | invalid =>
                    have hw' := List.mem_singleton.mp h
                    subst hw'
                    simp [checkTitan, warnOf]
                exact scanNM_logs_mono f rest d _ w hwc
              · exact ih rest d _ w h

/-- Dropping a nameless parsed manifest does not change the titan.json check
of a candidate: a parsed manifest without a truthy name registers nothing
and logs nothing, exactly like an absent manifest. -/
theorem checkTitan_drop (full : String) (mfst : ManifestState) (pj : Option PackageJson)
    (st : Found) : checkTitan full (mfstDrop mfst) pj st = checkTitan full mfst pj st := by
  cases mfst with
  | absent => rfl
  | invalid => rfl
  | parsed tj =>
    by_cases htr : strTruthy tj.name = true
    · simp [mfstDrop, htr]
    · have h1 : mfstDrop (.parsed tj) = .absent := by simp [mfstDrop, htr]
      rw [h1]
      cases hn : tj.name with
      | none => simp [checkTitan, hn]
      | some n =>
        rw [hn] at htr
        have hne : n = "" := by simpa [strTruthy] using htr
        simp [checkTitan, hn, hne]

/-- The node_modules child of a listing is found unchanged after the
manifest drop, with the drop applied to its contents. -/
theorem findNM_drop : ∀ (l : List NMEntry),
    findNM (nmListDrop l) = (findNM l).map nmListDrop := by
  intro l
  induction l with
  | nil => rfl
  | cons e rest ih =>
    cases e with
    | file n => simpa [nmListDrop, nmDrop, findNM] using ih
    | dir n mfst pj sub =>
      by_cases hn : n = "node_modules"
      · simp [nmListDrop, nmDrop, findNM, hn]
      · simpa [nmListDrop, nmDrop, findNM, hn] using ih

/-- Every directory entry has positive size. -/
theorem nmSize_pos : ∀ (e : NMEntry), 1 ≤ nmSize e := by
  intro e
  cases e with
  | file s => exact Nat.le_refl 1
  | dir n mfst pj sub =>
    have h : nmSize (.dir n mfst pj sub) = 1 + nmListSize sub := by simp [nmSize]
    omega

/-- Every directory listing has positive size. -/
theorem nmListSize_pos : ∀ (l : List NMEntry), 1 ≤ nmListSize l := by
  intro l
  cases l with
  | nil => exact Nat.le_refl 1
  | cons e rest =>
    have h : nmListSize (e :: rest) = 1 + nmSize e + nmListSize rest := by simp [nmListSize]
    omega

/-- The manifest drop preserves the size of a listing, hence the fuel of the
walk. -/
theorem nmListDrop_size : ∀ (n : Nat) (l : List NMEntry), nmListSize l ≤ n →
    nmListSize (nmListDrop l) = nmListSize l := by
  intro n
  induction n with
  | zero =>
    intro l hl
    have := nmListSize_pos l
    omega
  | succ n ih =>
    intro l hl
    cases l with
    | nil => rfl
    | cons e rest =>
      have hsz : nmListSize (e :: rest) = 1 + nmSize e + nmListSize rest := by
        simp [nmListSize]
      cases e with
      | file s =>
        have hse : nmSize (NMEntry.file s) = 1 := by simp [nmSize]
        have hrest : nmListSize (nmListDrop rest) = nmListSize rest := by
          apply ih
          omega
        have h3 : nmListDrop (.file s :: rest) = .file s :: nmListDrop rest := by
          simp [nmListDrop, nmDrop]
        have h4 : nmListSize (.file s :: nmListDrop rest) =
            1 + nmSize (NMEntry.file s) + nmListSize (nmListDrop rest) := by
          simp [nmListSize]
        rw [h3]
        omega
      | dir nm mfst pj sub =>
        have hse : nmSize (.dir nm mfst pj sub) = 1 + nmListSize sub := by simp [nmSize]
        have hsubpos := nmListSize_pos sub
        have hrestpos := nmListSize_pos rest
        have hsub : nmListSize (nmListDrop sub) = nmListSize sub := by
          apply ih
          omega
        have hrest : nmListSize (nmListDrop rest) = nmListSize rest := by
          apply ih
          omega
        have h3 : nmListDrop (.dir nm mfst pj sub :: rest) =
            .dir nm (mfstDrop mfst) pj (nmListDrop sub) :: nmListDrop rest := by
          simp [nmListDrop, nmDrop]
        have h4 : nmListSize (.dir nm (mfstDrop mfst) pj (nmListDrop sub) :: nmListDrop rest) =
            1 + (1 + nmListSize (nmListDrop sub)) + nmListSize (nmListDrop rest) := by
          simp [nmListSize, nmSize]
        have h5 : nmSize (.dir nm (mfstDrop mfst) pj (nmListDrop sub)) =
            1 + nmListSize (nmListDrop sub) := by simp [nmSize]
        rw [h3]
        omega

/-- The local-project step never reads the node_modules listing. -/
theorem rootState_nm_irrel (rootDir : String) (m : ManifestState)
    (pj : Option PackageJson) (x y : Option (List NMEntry)) :
    rootState rootDir ⟨m, pj, x⟩ = rootState rootDir ⟨m, pj, y⟩ := by
  cases m <;> rfl

/-- Dropping every nameless parsed manifest in the tree leaves the whole
walk unchanged: such candidates register nothing and log nothing. -/
theorem scanNM_drop (f : Nat) : ∀ (l : List NMEntry) (d : String) (st : Found),
    scanNM f (nmListDrop l) d st = scanNM f l d st := by
  induction f with
  | zero => intro l d st; rfl
  | succ f ih =>
    intro l d st
    cases l with
    | nil => rfl
    | cons e rest =>
      cases e with
      | file s =>
        have h1 : nmListDrop (.file s :: rest) = .file s :: nmListDrop rest := by
          simp [nmListDrop, nmDrop]
        have h2 : scanNM (f + 1) (.file s :: nmListDrop rest) d st =
            scanNM f (nmListDrop rest) d st := by simp [scanNM]
        have h3 : scanNM (f + 1) (.file s :: rest) d st = scanNM f rest d st := by
          simp [scanNM]
        rw [h1, h2, h3]
        exact ih rest d st
      | dir nm mfst pj sub =>
        have h1 : nmListDrop (.dir nm mfst pj sub :: rest) =
            .dir nm (mfstDrop mfst) pj (nmListDrop sub) :: nmListDrop rest := by
          simp [nmListDrop, nmDrop]
        rw [h1]
        by_cases hh : strStarts nm '.'
        · have h2 : scanNM (f + 1)
              (.dir nm (mfstDrop mfst) pj (nmListDrop sub) :: nmListDrop rest) d st =
              scanNM f (nmListDrop rest) d st := by simp [scanNM, hh]
          have h3 : scanNM (f + 1) (.dir nm mfst pj sub :: rest) d st =
              scanNM f rest d st := by simp [scanNM, hh]
          rw [h2, h3]
          exact ih rest d st
        · by_cases hs : strStarts nm '@'
          · have h2 : scanNM (f + 1)
                (.dir nm (mfstDrop mfst) pj (nmListDrop sub) :: nmListDrop rest) d st =
                scanNM f (nmListDrop rest) d (scanNM f (nmListDrop sub) (d ++ "/" ++ nm) st) := by
              simp [scanNM, hh, hs]
            have h3 : scanNM (f + 1) (.dir nm mfst pj sub :: rest) d st =
                scanNM f rest d (scanNM f sub (d ++ "/" ++ nm) st) := by
              simp [scanNM, hh, hs]
            rw [h2, h3, ih sub (d ++ "/" ++ nm) st]
            exact ih rest d _
          · cases hfind : findNM sub with
            | some nmsub =>
              have hfind' : findNM (nmListDrop sub) = some (nmListDrop nmsub) := by
                rw [findNM_drop sub, hfind]
                rfl
              have h2 : scanNM (f + 1)
                  (.dir nm (mfstDrop mfst) pj (nmListDrop sub) :: nmListDrop rest) d st =
                  scanNM f (nmListDrop rest) d
                    (scanNM f (nmListDrop nmsub) (d ++ "/" ++ nm ++ "/node_modules")
                      (checkTitan (d ++ "/" ++ nm) (mfstDrop mfst) pj st)) := by
                simp [scanNM, hh, hs, hfind']
              have h3 : scanNM (f + 1) (.dir nm mfst pj sub :: rest) d st =
                  scanNM f rest d (scanNM f nmsub (d ++ "/" ++ nm ++ "/node_modules")
                    (checkTitan (d ++ "/" ++ nm) mfst pj st)) := by
                simp [scanNM, hh, hs, hfind]
              rw [h2, h3, checkTitan_drop (d ++ "/" ++ nm) mfst pj st,
                ih nmsub (d ++ "/" ++ nm ++ "/node_modules")
                  (checkTitan (d ++ "/" ++ nm) mfst pj st)]
              exact ih rest d _
            | none =>
              have hfind' : findNM (nmListDrop sub) = none := by
                rw [findNM_drop sub, hfind]
                rfl
              have h2 : scanNM (f + 1)
                  (.dir nm (mfstDrop mfst) pj (nmListDrop sub) :: nmListDrop rest) d st =
                  scanNM f (nmListDrop rest) d
                    (checkTitan (d ++ "/" ++ nm) (mfstDrop mfst) pj st) := by
                simp [scanNM, hh, hs, hfind']
              have h3 : scanNM (f + 1) (.dir nm mfst pj sub :: rest) d st =
                  scanNM f rest d (checkTitan (d ++ "/" ++ nm) mfst pj st) := by
                simp [scanNM, hh, hs, hfind]
              rw [h2, h3, checkTitan_drop (d ++ "/" ++ nm) mfst pj st]
              exact ih rest d _

/-- Claim C3, counterexample: a root manifest that parses but misses the
required name field yields no extension AND no log message at all, while the
claim requires a warning through the logging side channel in this case too. -/
theorem C3_missing_name_counterexample :
    discoverExtensions "/proj" ⟨.parsed ⟨none, none, none⟩, none, none⟩ =
      (⟨[], []⟩ : Found) := rfl

/-- Claim C3, amended: a malformed manifest never yields an extension (every
returned extension carries a parsed manifest with a truthy name); an
unparseable manifest is reported as a warning, at the project root and at
every candidate directory the node_modules walk reaches; and a manifest that
parses without a truthy name is silently treated exactly like an absent
manifest, with no warning, at the root and at every candidate directory:
dropping every nameless parsed manifest in the tree leaves the whole
discovery result, extensions and logs alike, unchanged. -/
theorem C3_malformed_manifest_amended (rootDir : String) (fs : RootFs) :
    (∀ e ∈ (discoverExtensions rootDir fs).exts,
      e.titanJson.name = some e.name ∧ e.name ≠ "") ∧
    (fs.mfst = .invalid →
      "Warning: Invalid titan.json in project root" ∈ (discoverExtensions rootDir fs).logs) ∧
    (∀ l, fs.nodeModules = some l →
      ∀ w ∈ invalidWarns (nmListSize l) l (rootDir ++ "/node_modules"),
        w ∈ (discoverExtensions rootDir fs).logs) ∧
    (∀ tj, fs.mfst = .parsed tj → strTruthy tj.name = false →
      discoverExtensions rootDir fs =
        discoverExtensions rootDir ⟨.absent, fs.pkgJson, fs.nodeModules⟩) ∧
    (discoverExtensions rootDir
        ⟨fs.mfst, fs.pkgJson, Option.map nmListDrop fs.nodeModules⟩ =
      discoverExtensions rootDir fs) := by
  obtain ⟨Δ, hexts, hprops, _, ltail, hlogs⟩ := discover_step rootDir fs
  refine ⟨fun e he => ?_, fun hm => ?_, fun l hl w hw => ?_, fun tj hm htr => ?_, ?_⟩
  · rw [hexts] at he
    rcases List.mem_append.mp he with h | h
    · rcases rootState_cases rootDir fs with h0 | ⟨tj, n, _, hn, hne, h1⟩
      · rw [h0] at h
        exact absurd h (List.not_mem_nil e)
      · rw [h1, List.mem_singleton] at h
        subst h
        exact ⟨hn, hne⟩
    · exact ⟨(hprops e h).2.1, (hprops e h).2.2.1⟩
  · have hrootlogs : (rootState rootDir fs).logs =
        ["Warning: Invalid titan.json in project root"] := by
      simp [rootState, hm]
    rw [hlogs, hrootlogs]
    exact List.mem_append_left _ (List.mem_singleton_self _)
  · have hred : discoverExtensions rootDir fs =
        scanNM (nmListSize l) l (rootDir ++ "/node_modules") (rootState rootDir fs) := by
      unfold discoverExtensions
      rw [hl]
    rw [hred]
    exact invalidWarns_mem (nmListSize l) l (rootDir ++ "/node_modules")
      (rootState rootDir fs) w hw
  · have h1 : rootState rootDir fs = ⟨[], []⟩ := by
      cases hn : tj.name with
      | none => simp [rootState, hm, hn]
      | some n =>
        rw [hn] at htr
        simp only [strTruthy, decide_eq_false_iff_not, not_not] at htr
        simp [rootState, hm, hn, htr]
    have h2 : rootState rootDir (⟨.absent, fs.pkgJson, fs.nodeModules⟩ : RootFs) =
        ⟨[], []⟩ := rfl
    unfold discoverExtensions
    rw [h1, h2]
  · obtain ⟨m, pj, onm⟩ := fs
    cases onm with
    | none => rfl
    | some l =>
      have hsz : nmListSize (nmListDrop l) = nmListSize l :=
        nmListDrop_size (nmListSize l) l (Nat.le_refl _)
      have hroot : rootState rootDir ⟨m, pj, some (nmListDrop l)⟩ =
          rootState rootDir ⟨m, pj, some l⟩ := rootState_nm_irrel rootDir m pj _ _
      show scanNM (nmListSize (nmListDrop l)) (nmListDrop l) (rootDir ++ "/node_modules")
          (rootState rootDir ⟨m, pj, some (nmListDrop l)⟩) =
        scanNM (nmListSize l) l (rootDir ++ "/node_modules")
          (rootState rootDir ⟨m, pj, some l⟩)
      rw [hsz, hroot]
      exact scanNM_drop (nmListSize l) l (rootDir ++ "/node_modules")
        (rootState rootDir ⟨m, pj, some l⟩)

/-- Claim C3, witness: in a concrete tree the unparseable candidate inside
node_modules gets its warning logged, and a root manifest missing the name
field makes discovery behave exactly like one with no root manifest. -/
theorem C3_malformed_manifest_witness :
    "Warning: Invalid titan.json in /p/node_modules/a" ∈
      (discoverExtensions "/p"
        ⟨.parsed ⟨none, none, none⟩, none, some [.dir "a" .invalid none []]⟩).logs ∧
    discoverExtensions "/p"
        ⟨.parsed ⟨none, none, none⟩, none, some [.dir "a" .invalid none []]⟩ =
      discoverExtensions "/p"
        ⟨.absent, none, some [.dir "a" .invalid none []]⟩ :=
  ⟨(C3_malformed_manifest_amended "/p"
      ⟨.parsed ⟨none, none, none⟩, none, some [.dir "a" .invalid none []]⟩).2.2.1
      [.dir "a" .invalid none []] rfl
      "Warning: Invalid titan.json in /p/node_modules/a" (by decide),
   (C3_malformed_manifest_amended "/p"
      ⟨.parsed ⟨none, none, none⟩, none, some [.dir "a" .invalid none []]⟩).2.2.2.1
      ⟨none, none, none⟩ rfl rfl⟩

/-! ## Claims C1, C5 and C6: the dependency sort

The depth-first visit is analysed through an invariant relation VisitOut
between the state a visit starts from and the state it produces, proved for
every fuel, plus fuel-aware lemmas for the ordering claim.
-/

/-- Unfolding equation of visit at positive fuel. -/
theorem visit_succ (exts : List TitanExtension) (f : Nat) (ext : TitanExtension)
    (s : SortState) :
    visit exts (f + 1) ext s =
      if ext.name ∈ s.visited then s
      else if ext.name ∈ s.visiting then s
      else
        let s2 := visitDeps exts f (depKeys ext) ⟨s.sorted, s.visited, ext.name :: s.visiting⟩
        ⟨s2.sorted ++ [ext], ext.name :: s2.visited, s2.visiting.erase ext.name⟩ := rfl

/-- Unfolding equation of the dependency loop on an empty list. -/
theorem visitDeps_nil (exts : List TitanExtension) (f : Nat) (s : SortState) :
    visitDeps exts f [] s = s := rfl

/-- Unfolding equation of the dependency loop on a nonempty list. -/
theorem visitDeps_cons (exts : List TitanExtension) (f : Nat) (dn : String)
    (l : List String) (s : SortState) :
    visitDeps exts f (dn :: l) s =
      visitDeps exts f l
        (match byNameGet exts dn with
         | some dep => visit exts f dep s
         | none => s) := rfl

/-- A successful map lookup returns a member carrying the looked-up name. -/
theorem byNameGet_mem (exts : List TitanExtension) (dn : String) (dep : TitanExtension)
    (h : byNameGet exts dn = some dep) : dep ∈ exts ∧ dep.name = dn := by
  have key : ∀ (l : List TitanExtension) (acc : Option TitanExtension),
      l.foldl (fun acc e => if e.name = dn then some e else acc) acc = some dep →
      (dep ∈ l ∧ dep.name = dn) ∨ acc = some dep := by
    intro l
    induction l with
    | nil => exact fun acc h => Or.inr h
    | cons e l ih =>
      intro acc h
      rcases ih _ h with ⟨hm, hn⟩ | hacc
      · exact Or.inl ⟨List.mem_cons_of_mem e hm, hn⟩
      · by_cases he : e.name = dn
        · simp only [if_pos he] at hacc
          have hde : e = dep := Option.some_injective _ hacc
          subst hde
          exact Or.inl ⟨List.mem_cons_self _ _, he⟩
        · simp only [if_neg he] at hacc
          exact Or.inr hacc
  rcases key exts none h with h1 | h2
  · exact h1
  · exact absurd h2 (by simp)

/-- With duplicate-free names, looking up the name of a member returns that
member. -/
theorem byNameGet_self (exts : List TitanExtension)
    (hnodup : (exts.map TitanExtension.name).Nodup) (ext : TitanExtension)
    (hE : ext ∈ exts) : byNameGet exts ext.name = some ext := by
  have key1 : ∀ (n : String) (l : List TitanExtension) (acc : Option TitanExtension),
      (∀ e ∈ l, e.name ≠ n) →
      l.foldl (fun acc e => if e.name = n then some e else acc) acc = acc := by
    intro n l
    induction l with
    | nil => exact fun acc _ => rfl
    | cons e l ih =>
      intro acc hne
      show l.foldl _ (if e.name = n then some e else acc) = acc
      rw [if_neg (hne e (List.mem_cons_self e l))]
      exact ih acc (fun x hx => hne x (List.mem_cons_of_mem e hx))
  induction exts with
  | nil => exact absurd hE (List.not_mem_nil ext)
  | cons e l ih =>
    have hnodup' : (l.map TitanExtension.name).Nodup := (List.nodup_cons.mp hnodup).2
    have hhead : e.name ∉ l.map TitanExtension.name := (List.nodup_cons.mp hnodup).1
    rcases List.mem_cons.mp hE with rfl | hm
    · show l.foldl _ (if ext.name = ext.name then some ext else none) = some ext
      rw [if_pos rfl]
      refine key1 ext.name l (some ext) (fun x hx hxn => ?_)
      exact hhead (hxn ▸ List.mem_map_of_mem TitanExtension.name hx)
    · have hne : e.name ≠ ext.name := fun hh =>
        hhead (hh ▸ List.mem_map_of_mem TitanExtension.name hm)
      show l.foldl _ (if e.name = ext.name then some e else none) = some ext
      rw [if_neg hne]
      exact ih hnodup' hm

/-- The visit relation is reflexive. -/
theorem VisitOut_refl (exts : List TitanExtension) (s : SortState) : VisitOut exts s s :=
  ⟨rfl, [], by simp, fun e he => absurd he (List.not_mem_nil e),
    fun n => by simp, fun n hn => absurd hn (List.not_mem_nil n), id⟩

/-- The visit relation composes. -/
theorem VisitOut_trans {exts : List TitanExtension} {a b c : SortState}
    (h1 : VisitOut exts a b) (h2 : VisitOut exts b c) : VisitOut exts a c := by
  obtain ⟨hv1, Δ1, hs1, hm1, hvt1, hnv1, hi1⟩ := h1
  obtain ⟨hv2, Δ2, hs2, hm2, hvt2, hnv2, hi2⟩ := h2
  refine ⟨hv2.trans hv1, Δ1 ++ Δ2, by rw [hs2, hs1, List.append_assoc], fun e he => ?_,
    fun n => ?_, fun n hn => ?_, fun hJ => hi2 (hi1 hJ)⟩
  · rcases List.mem_append.mp he with h | h
    · exact hm1 e h
    · exact hm2 e h
  · rw [hvt2 n, hvt1 n, List.map_append, List.mem_append, or_assoc]
  · rw [List.map_append, List.mem_append] at hn
    rcases hn with h | h
    · exact hnv1 n h
    · rw [← hv1]
      exact hnv2 n h

/-- The dependency loop satisfies the visit relation whenever every single
visit at the same fuel does. -/
theorem visitDeps_main_of (exts : List TitanExtension) (f : Nat)
    (hvp : ∀ ext s, ext ∈ exts → VisitOut exts s (visit exts f ext s)) :
    ∀ (l : List String) (s : SortState), VisitOut exts s (visitDeps exts f l s) := by
  intro l
  induction l with
  | nil => exact fun s => VisitOut_refl exts s
  | cons dn l ih =>
    intro s
    rw [visitDeps_cons]
    cases hdn : byNameGet exts dn with
    | none => exact ih s
    | some dep => exact VisitOut_trans (hvp dep s (byNameGet_mem exts dn dep hdn).1) (ih _)

/-- Every visit, at every fuel, satisfies the visit relation. -/
theorem visit_main (exts : List TitanExtension) : ∀ f : Nat,
    ∀ (ext : TitanExtension) (s : SortState), ext ∈ exts →
      VisitOut exts s (visit exts f ext s) := by
  intro f
  induction f with
  | zero => exact fun ext s _ => VisitOut_refl exts s
  | succ f ih =>
    intro ext s hE
    rw [visit_succ]
    by_cases h1 : ext.name ∈ s.visited
    · rw [if_pos h1]
      exact VisitOut_refl exts s
    · rw [if_neg h1]
      by_cases h2 : ext.name ∈ s.visiting
      · rw [if_pos h2]
        exact VisitOut_refl exts s
      · rw [if_neg h2]
        have hD := visitDeps_main_of exts f ih (depKeys ext)
          ⟨s.sorted, s.visited, ext.name :: s.visiting⟩
        obtain ⟨hvis, Δd, hsort, hsub, hvtd, hnv, hinv⟩ := hD
        refine ⟨?_, Δd ++ [ext], ?_, fun e he => ?_, fun n => ?_, fun n hn => ?_, fun hJ => ?_⟩
        · show (visitDeps exts f (depKeys ext)
            ⟨s.sorted, s.visited, ext.name :: s.visiting⟩).visiting.erase ext.name = s.visiting
          rw [hvis]
          exact List.erase_cons_head ext.name s.visiting
        · show (visitDeps exts f (depKeys ext)
            ⟨s.sorted, s.visited, ext.name :: s.visiting⟩).sorted ++ [ext] = _
          rw [hsort, List.append_assoc]
        · rcases List.mem_append.mp he with h | h
          · exact hsub e h
          · rw [List.mem_singleton] at h
            subst h
            exact hE
        · show n ∈ ext.name :: (visitDeps exts f (depKeys ext)
            ⟨s.sorted, s.visited, ext.name :: s.visiting⟩).visited ↔ _
          rw [List.mem_cons, hvtd n]
          show n = ext.name ∨ n ∈ s.visited ∨ n ∈ Δd.map TitanExtension.name ↔ _
          rw [List.map_append, List.mem_append]
          simp only [List.map_cons, List.map_nil, List.mem_singleton]
          tauto
        · rw [List.map_append, List.mem_append] at hn
          rcases hn with h | h
          · have := hnv n h
            rw [List.mem_cons] at this
            push_neg at this
            exact this.2
          · simp only [List.map_cons, List.map_nil, List.mem_singleton] at h
            subst h
            exact h2
        · have hJ2 := hinv hJ
          constructor
          · intro n
            show n ∈ ext.name :: (visitDeps exts f (depKeys ext)
              ⟨s.sorted, s.visited, ext.name :: s.visiting⟩).visited ↔ _
            rw [List.mem_cons, hJ2.1 n, List.map_append, List.mem_append]
            simp only [List.map_cons, List.map_nil, List.mem_singleton]
            tauto
          · show (((visitDeps exts f (depKeys ext)
              ⟨s.sorted, s.visited, ext.name :: s.visiting⟩).sorted ++ [ext]).map
                TitanExtension.name).Nodup
            rw [List.map_append, List.nodup_append]
            have hnot : ext.name ∉ (visitDeps exts f (depKeys ext)
                ⟨s.sorted, s.visited, ext.name :: s.visiting⟩).sorted.map
                  TitanExtension.name := by
              intro hmem
              have hvtdm : ext.name ∈ (visitDeps exts f (depKeys ext)
                  ⟨s.sorted, s.visited, ext.name :: s.visiting⟩).visited :=
                (hJ2.1 ext.name).mpr hmem
              rcases (hvtd ext.name).mp hvtdm with h | h
              · exact h1 h
              · exact hnv ext.name h (List.mem_cons_self ext.name s.visiting)
            refine ⟨hJ2.2, List.nodup_singleton ext.name, fun x hx hxe => ?_⟩
            simp only [List.map_cons, List.map_nil, List.mem_singleton] at hxe
            subst hxe
            exact hnot hx

/-- With any positive fuel, a visit leaves its target handled: its name is
visited afterwards unless the target was already mid-visit. -/
theorem visit_post (exts : List TitanExtension) (f : Nat) (ext : TitanExtension)
    (s : SortState) (hf : 0 < f) :
    ext.name ∈ (visit exts f ext s).visited ∨ ext.name ∈ s.visiting := by
  cases f with
  | zero => exact absurd hf (lt_irrefl 0)
  | succ f =>
    rw [visit_succ]
    by_cases h1 : ext.name ∈ s.visited
    · rw [if_pos h1]
      exact Or.inl h1
    · rw [if_neg h1]
      by_cases h2 : ext.name ∈ s.visiting
      · rw [if_pos h2]
        exact Or.inr h2
      · rw [if_neg h2]
        exact Or.inl (List.mem_cons_self _ _)

/-- With any positive fuel, the dependency loop leaves every resolvable
dependency of its list handled. -/
theorem visitDeps_post (exts : List TitanExtension) (f : Nat) (hf : 0 < f) :
    ∀ (l : List String) (s : SortState), ∀ dn ∈ l, ∀ dep,
      byNameGet exts dn = some dep →
      dep.name ∈ (visitDeps exts f l s).visited ∨ dep.name ∈ s.visiting := by
  intro l
  induction l with
  | nil => exact fun s dn hdn => absurd hdn (List.not_mem_nil dn)
  | cons dn0 l ih =>
    intro s dn hdn dep hdep
    rw [visitDeps_cons]
    rcases List.mem_cons.mp hdn with rfl | hmem
    · rw [hdep]
      rcases visit_post exts f dep s hf with h | h
      · obtain ⟨_, Δ, _, _, hvt, _, _⟩ :=
          visitDeps_main_of exts f (visit_main exts f) l (visit exts f dep s)
        exact Or.inl ((hvt dep.name).mpr (Or.inl h))
      · exact Or.inr h
    · cases hdn0 : byNameGet exts dn0 with
      | none => exact ih s dn hmem dep hdep
      | some dep0 =>
        rcases ih (visit exts f dep0 s) dn hmem dep hdep with h | h
        · exact Or.inl h
        · right
          rwa [(visit_main exts f dep0 s (byNameGet_mem exts dn0 dep0 hdn0).1).1] at h

/-- The free count never exceeds the number of extensions. -/
theorem freeCount_le (exts : List TitanExtension) (s : SortState) :
    freeCount exts s ≤ exts.length := by
  refine le_trans (List.length_filter_le _ _) ?_
  rw [List.length_map]

/-- States with the same visiting set have the same free count. -/
theorem freeCount_congr (exts : List TitanExtension) {s s' : SortState}
    (h : s'.visiting = s.visiting) : freeCount exts s' = freeCount exts s := by
  unfold freeCount
  rw [h]

/-- Marking a fresh present name as mid-visit strictly decreases the free
count. -/
theorem freeCount_push (exts : List TitanExtension) (s : SortState) (x : String)
    (hx : x ∈ exts.map TitanExtension.name) (hnx : x ∉ s.visiting)
    (s' : SortState) (h : s'.visiting = x :: s.visiting) :
    freeCount exts s' < freeCount exts s := by
  unfold freeCount
  rw [h]
  have key : ∀ l : List String, x ∈ l →
      (l.filter (fun n => n ∉ x :: s.visiting)).length <
        (l.filter (fun n => n ∉ s.visiting)).length := by
    intro l hl
    have hmono : ∀ l' : List String,
        (l'.filter (fun n => n ∉ x :: s.visiting)).length ≤
          (l'.filter (fun n => n ∉ s.visiting)).length := by
      intro l'
      induction l' with
      | nil => exact le_refl 0
      | cons a t iht =>
        rw [List.filter_cons, List.filter_cons]
        by_cases h1 : a ∈ x :: s.visiting
        · have c1 : decide (a ∉ x :: s.visiting) = false := decide_eq_false (not_not_intro h1)
          rw [c1]
          by_cases h2 : a ∈ s.visiting
          · have c2 : decide (a ∉ s.visiting) = false := decide_eq_false (not_not_intro h2)
            rw [c2]
            simp only [Bool.false_eq_true, if_false]
            exact iht
          · have c2 : decide (a ∉ s.visiting) = true := decide_eq_true h2
            rw [c2]
            simp only [Bool.false_eq_true, if_false, if_true]
            exact le_trans iht (Nat.le_succ _)
        · have h2 : a ∉ s.visiting := fun hc => h1 (List.mem_cons_of_mem x hc)
          have c1 : decide (a ∉ x :: s.visiting) = true := decide_eq_true h1
          have c2 : decide (a ∉ s.visiting) = true := decide_eq_true h2
          rw [c1, c2]
          simp only [if_true]
          exact Nat.succ_le_succ iht
    induction l with
    | nil => exact absurd hl (List.not_mem_nil x)
    | cons a t iht =>
      by_cases hax : a = x
      · subst hax
        rw [List.filter_cons, List.filter_cons]
        have c1 : decide (a ∉ a :: s.visiting) = false := by simp
        have c2 : decide (a ∉ s.visiting) = true := by simpa using hnx
        rw [c1, c2]
        simp only [if_false, if_true, Bool.false_eq_true]
        exact Nat.lt_succ_of_le (hmono t)
      · have hl' : x ∈ t := by
          rcases List.mem_cons.mp hl with h | h
          · exact absurd h.symm hax
          · exact h
        rw [List.filter_cons, List.filter_cons]
        have heq : decide (a ∉ x :: s.visiting) = decide (a ∉ s.visiting) := by
          simp [List.mem_cons, hax]
        rw [heq]
        cases hdec : decide (a ∉ s.visiting) with
        | true =>
          simp only [if_true]
          exact Nat.succ_lt_succ (iht hl')
        | false =>
          simp only [if_false, Bool.false_eq_true]
          exact iht hl'
  exact key _ hx

/-- Every entry of a chain reaches the top of the chain through dependency
edges. -/
theorem chain_transGen (exts : List TitanExtension) :
    ∀ (l : List String) (x p : String), ChainCons exts (x :: l) → p ∈ l →
      Relation.TransGen (depEdge exts) p x := by
  intro l
  induction l with
  | nil => exact fun x p _ hp => absurd hp (List.not_mem_nil p)
  | cons b t ih =>
    intro x p hc hp
    obtain ⟨hedge, hrest⟩ := hc
    rcases List.mem_cons.mp hp with rfl | hpt
    · exact Relation.TransGen.single hedge
    · exact Relation.TransGen.tail (ih b p hrest hpt) hedge

/-- A ranking that strictly decreases along declared resolvable dependencies
makes the dependency relation acyclic. -/
theorem acyclic_of_rank (exts : List TitanExtension) (rank : String → Nat)
    (h : ∀ A ∈ exts, ∀ dn ∈ depKeys A, (byNameGet exts dn).isSome = true →
      rank dn < rank A.name) :
    ∀ a, ¬ Relation.TransGen (depEdge exts) a a := by
  have hstep : ∀ a b, depEdge exts a b → rank b < rank a := by
    rintro a b ⟨A, B, hA, hB, hdn⟩
    obtain ⟨hAm, hAn⟩ := byNameGet_mem exts a A hA
    have := h A hAm b hdn (by rw [hB]; rfl)
    rwa [hAn] at this
  have hmono : ∀ a b, Relation.TransGen (depEdge exts) a b → rank b < rank a := by
    intro a b htg
    induction htg with
    | single h1 => exact hstep _ _ h1
    | tail _ h1 ih => exact lt_trans (hstep _ _ h1) ih
  exact fun a htg => lt_irrefl (rank a) (hmono a a htg)

/-- The dependency loop preserves the ordering invariant whenever every
single visit at the same fuel does, given the chain hypotheses and
sufficent fuel. -/
theorem visitDeps_K_of (exts : List TitanExtension) (f : Nat)
    (hv : ∀ ext s, ext ∈ exts → freeCount exts s < f → SortInv s → Ksorted exts s →
      ChainCons exts (ext.name :: s.visiting) → Ksorted exts (visit exts f ext s)) :
    ∀ (l : List String) (s : SortState) (parent : String) (rest : List String),
      s.visiting = parent :: rest → freeCount exts s < f →
      SortInv s → Ksorted exts s → ChainCons exts s.visiting →
      (∀ dn ∈ l, ∀ dep, byNameGet exts dn = some dep →
        depEdge exts parent dep.name) →
      Ksorted exts (visitDeps exts f l s) := by
  intro l
  induction l with
  | nil => exact fun s _ _ _ _ _ hK _ _ => hK
  | cons dn l ih =>
    intro s parent rest hvis hf hJ hK hchain hedges
    rw [visitDeps_cons]
    cases hdn : byNameGet exts dn with
    | none =>
      exact ih s parent rest hvis hf hJ hK hchain
        (fun dn' h' => hedges dn' (List.mem_cons_of_mem dn h'))
    | some dep =>
      have hdepm := byNameGet_mem exts dn dep hdn
      have hchaind : ChainCons exts (dep.name :: s.visiting) := by
        rw [hvis]
        refine ⟨hedges dn (List.mem_cons_self dn l) dep hdn, ?_⟩
        rw [hvis] at hchain
        exact hchain
      have hK' : Ksorted exts (visit exts f dep s) := hv dep s hdepm.1 hf hJ hK hchaind
      obtain ⟨hvis', Δ', hsort', hsub', hvt', hnv', hinv'⟩ := visit_main exts f dep s hdepm.1
      refine ih (visit exts f dep s) parent rest (by rw [hvis', hvis])
        (by rw [freeCount_congr exts hvis']; exact hf) (hinv' hJ) hK'
        (by rw [hvis']; exact hchain)
        (fun dn' h' => hedges dn' (List.mem_cons_of_mem dn h'))

/-- Under acyclicity and duplicate-free names, every visit preserves the
ordering invariant when the fuel exceeds the free count and the visiting
stack forms a chain to the visited extension. -/
theorem visit_K (exts : List TitanExtension)
    (hacyc : ∀ a, ¬ Relation.TransGen (depEdge exts) a a)
    (hnodup : (exts.map TitanExtension.name).Nodup) : ∀ f : Nat,
    ∀ ext s, ext ∈ exts → freeCount exts s < f → SortInv s → Ksorted exts s →
      ChainCons exts (ext.name :: s.visiting) → Ksorted exts (visit exts f ext s) := by
  intro f
  induction f with
  | zero => exact fun ext s _ hf => absurd hf (Nat.not_lt_zero _)
  | succ f ih =>
    intro ext s hE hf hJ hK hchain
    rw [visit_succ]
    by_cases h1 : ext.name ∈ s.visited
    · rw [if_pos h1]
      exact hK
    · rw [if_neg h1]
      by_cases h2 : ext.name ∈ s.visiting
      · rw [if_pos h2]
        exact hK
      · rw [if_neg h2]
        have hxname : ext.name ∈ exts.map TitanExtension.name :=
          List.mem_map_of_mem TitanExtension.name hE
        have hf1 : freeCount exts (⟨s.sorted, s.visited, ext.name :: s.visiting⟩ : SortState) < f := by
          have hlt : freeCount exts (⟨s.sorted, s.visited, ext.name :: s.visiting⟩ : SortState) <
              freeCount exts s := freeCount_push exts s ext.name hxname h2 _ rfl
          omega
        have hfpos : 0 < f := Nat.pos_of_ne_zero (fun hz => by rw [hz] at hf1; exact Nat.not_lt_zero _ hf1)
        have hedges : ∀ dn ∈ depKeys ext, ∀ dep, byNameGet exts dn = some dep →
            depEdge exts ext.name dep.name := by
          intro dn hdn dep hdep
          have hnm := (byNameGet_mem exts dn dep hdep).2
          exact ⟨ext, dep, byNameGet_self exts hnodup ext hE, hnm ▸ hdep, hnm ▸ hdn⟩
        have hK2 : Ksorted exts (visitDeps exts f (depKeys ext)
            ⟨s.sorted, s.visited, ext.name :: s.visiting⟩) :=
          visitDeps_K_of exts f ih (depKeys ext) _ ext.name s.visiting rfl hf1 hJ hK hchain hedges
        obtain ⟨hvis2, Δ2, hsort2, hsub2, hvt2, hnv2, hinv2⟩ :=
          visitDeps_main_of exts f (visit_main exts f) (depKeys ext)
            ⟨s.sorted, s.visited, ext.name :: s.visiting⟩
        have hJ2 : SortInv (visitDeps exts f (depKeys ext)
            ⟨s.sorted, s.visited, ext.name :: s.visiting⟩) := hinv2 hJ
        intro i hi dn hdn dep hdep
        set s2 := visitDeps exts f (depKeys ext)
          (⟨s.sorted, s.visited, ext.name :: s.visiting⟩ : SortState) with hs2
        by_cases hlen : i < s2.sorted.length
        · have hget : (s2.sorted ++ [ext]).get ⟨i, hi⟩ = s2.sorted.get ⟨i, hlen⟩ := by
            rw [List.get_eq_getElem, List.get_eq_getElem]
            exact List.getElem_append_left hlen
          have htake : (s2.sorted ++ [ext]).take i = s2.sorted.take i :=
            List.take_append_of_le_length (le_of_lt hlen)
          rw [hget] at hdn
          have := hK2 i hlen dn hdn dep hdep
          show dep.name ∈ ((s2.sorted ++ [ext]).take i).map TitanExtension.name
          rw [htake]
          exact this
        · have hieq : i = s2.sorted.length := by
            have hlt : i < s2.sorted.length + 1 := by
              have := hi
              simpa using this
            omega
          have hget : (s2.sorted ++ [ext]).get ⟨i, hi⟩ = ext := by
            subst hieq
            simp
          rw [hget] at hdn
          have htake : (s2.sorted ++ [ext]).take i = s2.sorted := by
            subst hieq
            rw [List.take_append_of_le_length (le_refl _), List.take_length]
          show dep.name ∈ ((s2.sorted ++ [ext]).take i).map TitanExtension.name
          rw [htake]
          rcases visitDeps_post exts f hfpos (depKeys ext)
            ⟨s.sorted, s.visited, ext.name :: s.visiting⟩ dn hdn dep hdep with h | h
          · exact (hJ2.1 dep.name).mp h
          · exfalso
            have hedge : depEdge exts ext.name dep.name := hedges dn hdn dep hdep
            rcases List.mem_cons.mp h with heq | hmem
            · exact hacyc ext.name (Relation.TransGen.single (heq ▸ hedge))
            · have htg : Relation.TransGen (depEdge exts) dep.name ext.name :=
                chain_transGen exts s.visiting ext.name dep.name hchain hmem
              exact hacyc dep.name (Relation.TransGen.tail htg hedge)

/-- A fold of visits over members of the set satisfies the visit relation. -/
theorem visitFold (exts : List TitanExtension) (f : Nat) :
    ∀ (roots : List TitanExtension), (∀ e ∈ roots, e ∈ exts) →
      ∀ s, VisitOut exts s (roots.foldl (fun st e => visit exts f e st) s) := by
  intro roots
  induction roots with
  | nil => exact fun _ s => VisitOut_refl exts s
  | cons r roots ih =>
    intro hsub s
    rw [List.foldl_cons]
    exact VisitOut_trans (visit_main exts f r s (hsub r (List.mem_cons_self r roots)))
      (ih (fun e he => hsub e (List.mem_cons_of_mem r he)) _)

/-- After a fold of visits started with an empty visiting stack and positive
fuel, every root has been visited. -/
theorem visitFold_post (exts : List TitanExtension) (f : Nat) (hf : 0 < f) :
    ∀ (roots : List TitanExtension), (∀ e ∈ roots, e ∈ exts) →
      ∀ s : SortState, s.visiting = [] →
        ∀ e ∈ roots, e.name ∈ (roots.foldl (fun st e => visit exts f e st) s).visited := by
  intro roots
  induction roots with
  | nil => exact fun _ s _ e he => absurd he (List.not_mem_nil e)
  | cons r roots ih =>
    intro hsub s hvis e he
    rw [List.foldl_cons]
    have hrE : r ∈ exts := hsub r (List.mem_cons_self r roots)
    have hvis' : (visit exts f r s).visiting = [] := by
      rw [(visit_main exts f r s hrE).1, hvis]
    rcases List.mem_cons.mp he with rfl | hmem
    · rcases visit_post exts f e s hf with h | h
      · obtain ⟨_, Δ, _, _, hvt, _, _⟩ := visitFold exts f roots
          (fun x hx => hsub x (List.mem_cons_of_mem e hx)) (visit exts f e s)
        exact (hvt e.name).mpr (Or.inl h)
      · rw [hvis] at h
        exact absurd h (List.not_mem_nil e.name)
    · exact ih (fun x hx => hsub x (List.mem_cons_of_mem r hx)) _ hvis' e hmem

/-- With at most one local entry, the search for the local extension finds
exactly any given local member. -/
theorem find_local (exts : List TitanExtension) (loc : TitanExtension)
    (hloc : loc ∈ exts) (hl : loc.isLocal = true)
    (huniq : exts.countP (fun e => e.isLocal) ≤ 1) :
    exts.find? (fun e => e.isLocal) = some loc := by
  induction exts with
  | nil => exact absurd hloc (List.not_mem_nil loc)
  | cons a l ih =>
    rw [List.countP_cons] at huniq
    by_cases ha : a.isLocal = true
    · rw [List.find?_cons_of_pos l ha]
      rcases List.mem_cons.mp hloc with rfl | hmem
      · rfl
      · exfalso
        have hpos : 0 < l.countP (fun e => e.isLocal) :=
          List.countP_pos_iff.mpr ⟨loc, hmem, by simpa using hl⟩
        simp only [ha, if_pos] at huniq
        omega
    · rw [List.find?_cons_of_neg l (by simpa using ha)]
      have hmem : loc ∈ l := by
        rcases List.mem_cons.mp hloc with rfl | hmem
        · exact absurd hl ha
        · exact hmem
      refine ih hmem ?_
      simp only [ha] at huniq
      omega

/-- Unfolding equation of sortByDependencies. -/
theorem sortByDependencies_eq (exts : List TitanExtension) :
    sortByDependencies exts =
      (match exts.find? (fun (e : TitanExtension) => e.isLocal) with
       | some l => visit exts (exts.length + 1) l
           ((exts.filter (fun (e : TitanExtension) => !e.isLocal)).foldl
             (fun s e => visit exts (exts.length + 1) e s) ⟨[], [], []⟩)
       | none => (exts.filter (fun (e : TitanExtension) => !e.isLocal)).foldl
           (fun s e => visit exts (exts.length + 1) e s) ⟨[], [], []⟩).sorted := rfl

/-- Claim C5, confirmed: for every discovered set (duplicate-free names, at
most one local entry), the sort is a total function returning a permutation
of its input, with no acyclicity assumption: a node re-encountered while in
the visiting state is skipped, so cycles are broken silently and every
extension still appears exactly once. -/
theorem C5_sort_permutation (exts : List TitanExtension)
    (hnodup : (exts.map TitanExtension.name).Nodup)
    (hloc : exts.countP (fun e => e.isLocal) ≤ 1) :
    (sortByDependencies exts).Perm exts := by
  have hJ0 : SortInv ⟨[], [], []⟩ := ⟨fun n => by simp, by simp⟩
  have hsub : ∀ e ∈ exts.filter (fun e => !e.isLocal), e ∈ exts :=
    fun e he => (List.mem_filter.mp he).1
  have hFpos : 0 < exts.length + 1 := Nat.succ_pos _
  have h1 := visitFold exts (exts.length + 1) (exts.filter (fun e => !e.isLocal)) hsub
    ⟨[], [], []⟩
  set s1 := (exts.filter (fun e => !e.isLocal)).foldl
    (fun s e => visit exts (exts.length + 1) e s) ⟨[], [], []⟩ with hs1
  have hvis1 : s1.visiting = [] := h1.1
  have main : ∀ s2 : SortState, VisitOut exts ⟨[], [], []⟩ s2 →
      (∀ e ∈ exts, e.name ∈ s2.visited) → s2.sorted.Perm exts := by
    intro s2 h2 hcompl
    obtain ⟨hvis2, Δ, hsort, hmem, hvt, hnv, hinv⟩ := h2
    have hJ2 : SortInv s2 := hinv hJ0
    have hsorted_sub : ∀ e ∈ s2.sorted, e ∈ exts := by
      intro e he
      rw [hsort] at he
      exact hmem e (by simpa using he)
    have hexts_nodup : exts.Nodup := List.Nodup.of_map TitanExtension.name hnodup
    have hsorted_nodup : s2.sorted.Nodup := List.Nodup.of_map TitanExtension.name hJ2.2
    have hsub2 : ∀ e ∈ exts, e ∈ s2.sorted := by
      intro e he
      have hn : e.name ∈ s2.sorted.map TitanExtension.name :=
        (hJ2.1 e.name).mp (hcompl e he)
      obtain ⟨e2, he2, hname⟩ := List.mem_map.mp hn
      have he2E : e2 ∈ exts := hsorted_sub e2 he2
      have : e2 = e := List.inj_on_of_nodup_map hnodup he2E he hname
      exact this ▸ he2
    exact List.Subperm.antisymm
      (List.subperm_of_subset hsorted_nodup hsorted_sub)
      (List.subperm_of_subset hexts_nodup hsub2)
  rw [sortByDependencies_eq]
  cases hfind : exts.find? (fun e => e.isLocal) with
  | none =>
    refine main s1 h1 (fun e he => ?_)
    have hel : e.isLocal = false := by
      have := List.find?_eq_none.mp hfind e he
      simpa using this
    have hroot : e ∈ exts.filter (fun e => !e.isLocal) :=
      List.mem_filter.mpr ⟨he, by simp [hel]⟩
    exact visitFold_post exts (exts.length + 1) hFpos _ hsub ⟨[], [], []⟩ rfl e hroot
  | some loc =>
    have hlocE : loc ∈ exts := List.mem_of_find?_eq_some hfind
    have h2 : VisitOut exts ⟨[], [], []⟩ (visit exts (exts.length + 1) loc s1) :=
      VisitOut_trans h1 (visit_main exts (exts.length + 1) loc s1 hlocE)
    refine main _ h2 (fun e he => ?_)
    obtain ⟨_, Δl, _, _, hvtl, _, _⟩ := visit_main exts (exts.length + 1) loc s1 hlocE
    by_cases hel : e.isLocal = true
    · have : e = loc := by
        have := find_local exts e he hel hloc
        rw [hfind] at this
        exact (Option.some_injective _ this.symm)
      subst this
      rcases visit_post exts (exts.length + 1) e s1 hFpos with h | h
      · exact h
      · rw [hvis1] at h
        exact absurd h (List.not_mem_nil e.name)
    · have hfalse : e.isLocal = false := by
        revert hel
        cases e.isLocal <;> simp
      have hroot : e ∈ exts.filter (fun e => !e.isLocal) :=
        List.mem_filter.mpr ⟨he, by simp [hfalse]⟩
      have hin1 : e.name ∈ s1.visited :=
        visitFold_post exts (exts.length + 1) hFpos _ hsub ⟨[], [], []⟩ rfl e hroot
      exact (hvtl e.name).mpr (Or.inl hin1)

/-- Claim C5, witness: a two-element dependency cycle still yields a complete
order containing both extensions exactly once. -/
theorem C5_sort_permutation_witness :
    (sortByDependencies
      [⟨"A", "/nm/A", ⟨some "A", none, none⟩, some ⟨["B"], [], []⟩, false⟩,
       ⟨"B", "/nm/B", ⟨some "B", none, none⟩, some ⟨["A"], [], []⟩, false⟩]).Perm
      [⟨"A", "/nm/A", ⟨some "A", none, none⟩, some ⟨["B"], [], []⟩, false⟩,
       ⟨"B", "/nm/B", ⟨some "B", none, none⟩, some ⟨["A"], [], []⟩, false⟩] :=
  C5_sort_permutation _ (by decide) (by decide)

/-- The final state of the sort run: its output is the returned list, it
satisfies the ordering invariant under acyclicity, and it only emits members
of the set. -/
theorem sortByDependencies_Ksorted (exts : List TitanExtension)
    (hnodup : (exts.map TitanExtension.name).Nodup)
    (hacyc : ∀ a, ¬ Relation.TransGen (depEdge exts) a a) :
    ∃ s : SortState, sortByDependencies exts = s.sorted ∧ Ksorted exts s ∧
      (∀ e ∈ s.sorted, e ∈ exts) := by
  have hJ0 : SortInv ⟨[], [], []⟩ := ⟨fun n => by simp, by simp⟩
  have hK0 : Ksorted exts ⟨[], [], []⟩ := fun i hi => absurd hi (by simp)
  have hstep : ∀ (r : TitanExtension), r ∈ exts → ∀ s : SortState, s.visiting = [] →
      SortInv s → Ksorted exts s →
      Ksorted exts (visit exts (exts.length + 1) r s) ∧
        (visit exts (exts.length + 1) r s).visiting = [] ∧
        SortInv (visit exts (exts.length + 1) r s) := by
    intro r hrE s hvis hJ hK
    have hchain : ChainCons exts (r.name :: s.visiting) := by
      rw [hvis]
      trivial
    have hfree : freeCount exts s < exts.length + 1 :=
      Nat.lt_succ_of_le (freeCount_le exts s)
    obtain ⟨hvis', Δ, _, _, _, _, hinv⟩ := visit_main exts (exts.length + 1) r s hrE
    exact ⟨visit_K exts hacyc hnodup (exts.length + 1) r s hrE hfree hJ hK hchain,
      by rw [hvis', hvis], hinv hJ⟩
  have hfold : ∀ (roots : List TitanExtension), (∀ e ∈ roots, e ∈ exts) →
      ∀ s : SortState, s.visiting = [] → SortInv s → Ksorted exts s →
      Ksorted exts (roots.foldl (fun st e => visit exts (exts.length + 1) e st) s) ∧
        (roots.foldl (fun st e => visit exts (exts.length + 1) e st) s).visiting = [] ∧
        SortInv (roots.foldl (fun st e => visit exts (exts.length + 1) e st) s) := by
    intro roots
    induction roots with
    | nil => exact fun _ s h1 h2 h3 => ⟨h3, h1, h2⟩
    | cons r roots ih =>
      intro hsub s hvis hJ hK
      rw [List.foldl_cons]
      obtain ⟨k1, k2, k3⟩ := hstep r (hsub r (List.mem_cons_self r roots)) s hvis hJ hK
      exact ih (fun e he => hsub e (List.mem_cons_of_mem r he)) _ k2 k3 k1
  have hsub : ∀ e ∈ exts.filter (fun e => !e.isLocal), e ∈ exts :=
    fun e he => (List.mem_filter.mp he).1
  obtain ⟨k1, k2, k3⟩ := hfold (exts.filter (fun e => !e.isLocal)) hsub ⟨[], [], []⟩ rfl hJ0 hK0
  have hmem1 : ∀ e ∈ ((exts.filter (fun e => !e.isLocal)).foldl
      (fun st e => visit exts (exts.length + 1) e st) ⟨[], [], []⟩).sorted, e ∈ exts := by
    obtain ⟨_, Δ, hsort, hmem, _, _, _⟩ := visitFold exts (exts.length + 1) _ hsub
      (⟨[], [], []⟩ : SortState)
    intro e he
    rw [hsort] at he
    exact hmem e (by simpa using he)
  rw [sortByDependencies_eq]
  cases hfind : exts.find? (fun e => e.isLocal) with
  | none => exact ⟨_, rfl, k1, hmem1⟩
  | some loc =>
    have hlocE : loc ∈ exts := List.mem_of_find?_eq_some hfind
    obtain ⟨m1, m2, m3⟩ := hstep loc hlocE _ k2 k3 k1
    refine ⟨_, rfl, m1, ?_⟩
    obtain ⟨_, Δ, hsort, hmem, _, _, _⟩ := visit_main exts (exts.length + 1) loc _ hlocE
    intro e he
    rw [hsort] at he
    rcases List.mem_append.mp he with h | h
    · exact hmem1 e h
    · exact hmem e h

/-- Claim C6, confirmed: for an acyclic discovered set with duplicate-free
names, whenever extension A declares a dependency on the name of extension B
(in the merged runtime, peer and development keys), B appears in the output
strictly before A: every decomposition of the output with A at some position
has B in the preceding prefix. -/
theorem C6_dependency_order (exts : List TitanExtension)
    (hnodup : (exts.map TitanExtension.name).Nodup)
    (hacyc : ∀ a, ¬ Relation.TransGen (depEdge exts) a a)
    (A B : TitanExtension) (hA : A ∈ exts) (hB : B ∈ exts)
    (hdep : B.name ∈ depKeys A) :
    ∀ pre post, sortByDependencies exts = pre ++ A :: post → B ∈ pre := by
  obtain ⟨s, hseq, hK, hsub⟩ := sortByDependencies_Ksorted exts hnodup hacyc
  intro pre post hdecomp
  rw [hseq] at hdecomp
  have hlen : pre.length < s.sorted.length := by
    rw [hdecomp]
    simp
  have hgetA : s.sorted.get ⟨pre.length, hlen⟩ = A := by
    rw [List.get_eq_getElem]
    conv in s.sorted => rw [hdecomp]
    rw [List.getElem_append_right (le_refl pre.length)]
    simp
  have htake : s.sorted.take pre.length = pre := by
    conv in s.sorted => rw [hdecomp]
    exact List.take_left pre (A :: post)
  have hBres : byNameGet exts B.name = some B := byNameGet_self exts hnodup B hB
  have hdn : B.name ∈ depKeys (s.sorted.get ⟨pre.length, hlen⟩) := by
    rw [hgetA]
    exact hdep
  have hmem := hK pre.length hlen B.name hdn B hBres
  rw [htake] at hmem
  obtain ⟨e, he, hname⟩ := List.mem_map.mp hmem
  have heE : e ∈ exts := by
    refine hsub e ?_
    rw [hdecomp]
    exact List.mem_append_left _ he
  have : e = B := List.inj_on_of_nodup_map hnodup heE hB hname
  exact this ▸ he

/-- Claim C6, witness: for A depending on B and B without dependencies, the
output order is B then A, and the theorem places B in the prefix before A. -/
theorem C6_dependency_order_witness :
    sortByDependencies
      [⟨"A", "/nm/A", ⟨some "A", none, none⟩, some ⟨["B"], [], []⟩, false⟩,
       ⟨"B", "/nm/B", ⟨some "B", none, none⟩, none, false⟩] =
      [⟨"B", "/nm/B", ⟨some "B", none, none⟩, none, false⟩] ++
        ⟨"A", "/nm/A", ⟨some "A", none, none⟩, some ⟨["B"], [], []⟩, false⟩ :: [] ∧
    (⟨"B", "/nm/B", ⟨some "B", none, none⟩, none, false⟩ : TitanExtension) ∈
      [(⟨"B", "/nm/B", ⟨some "B", none, none⟩, none, false⟩ : TitanExtension)] := by
  refine ⟨rfl, ?_⟩
  exact C6_dependency_order
    [⟨"A", "/nm/A", ⟨some "A", none, none⟩, some ⟨["B"], [], []⟩, false⟩,
     ⟨"B", "/nm/B", ⟨some "B", none, none⟩, none, false⟩]
    (by decide)
    (acyclic_of_rank _ (fun n => if n = "A" then 1 else 0) (by decide))
    ⟨"A", "/nm/A", ⟨some "A", none, none⟩, some ⟨["B"], [], []⟩, false⟩
    ⟨"B", "/nm/B", ⟨some "B", none, none⟩, none, false⟩
    (by decide) (by decide) (by decide)
    [⟨"B", "/nm/B", ⟨some "B", none, none⟩, none, false⟩] [] rfl

/-- Names emitted by a visit avoid a fixed name that no extension declares as
a dependency and that differs from the visited root, for every fuel. -/
theorem visit_avoidLoc (exts : List TitanExtension) (locname : String)
    (hnd : ∀ e ∈ exts, locname ∉ depKeys e) : ∀ f : Nat,
    (∀ ext s, ext ∈ exts → ext.name ≠ locname →
      locname ∉ s.sorted.map TitanExtension.name →
      locname ∉ (visit exts f ext s).sorted.map TitanExtension.name) ∧
    (∀ (l : List String) (s : SortState), locname ∉ l →
      locname ∉ s.sorted.map TitanExtension.name →
      locname ∉ (visitDeps exts f l s).sorted.map TitanExtension.name) := by
  intro f
  induction f with
  | zero =>
    refine ⟨fun ext s _ _ h => h, ?_⟩
    intro l
    induction l with
    | nil => exact fun s _ h => h
    | cons dn l ihl =>
      intro s hnl h
      rw [visitDeps_cons]
      cases hdn : byNameGet exts dn with
      | none => exact ihl _ (fun hc => hnl (List.mem_cons_of_mem dn hc)) h
      | some dep => exact ihl _ (fun hc => hnl (List.mem_cons_of_mem dn hc)) h
  | succ f ihf =>
    have hvp : ∀ ext s, ext ∈ exts → ext.name ≠ locname →
        locname ∉ s.sorted.map TitanExtension.name →
        locname ∉ (visit exts (f + 1) ext s).sorted.map TitanExtension.name := by
      intro ext s hE hne h
      rw [visit_succ]
      by_cases h1 : ext.name ∈ s.visited
      · rw [if_pos h1]
        exact h
      · rw [if_neg h1]
        by_cases h2 : ext.name ∈ s.visiting
        · rw [if_pos h2]
          exact h
        · rw [if_neg h2]
          have h2' : locname ∉ (visitDeps exts f (depKeys ext)
              ⟨s.sorted, s.visited, ext.name :: s.visiting⟩).sorted.map
                TitanExtension.name :=
            ihf.2 (depKeys ext) _ (hnd ext hE) h
          show locname ∉ ((visitDeps exts f (depKeys ext)
            ⟨s.sorted, s.visited, ext.name :: s.visiting⟩).sorted ++ [ext]).map
              TitanExtension.name
          rw [List.map_append, List.mem_append]
          push_neg
          refine ⟨h2', ?_⟩
          simp only [List.map_cons, List.map_nil, List.mem_singleton]
          exact fun hc => hne hc.symm
    refine ⟨hvp, ?_⟩
    intro l
    induction l with
    | nil => exact fun s _ h => h
    | cons dn l ihl =>
      intro s hnl h
      rw [visitDeps_cons]
      cases hdn : byNameGet exts dn with
      | none => exact ihl _ (fun hc => hnl (List.mem_cons_of_mem dn hc)) h
      | some dep =>
        have hdm := byNameGet_mem exts dn dep hdn
        have hdne : dep.name ≠ locname := by
          rw [hdm.2]
          exact fun hc => hnl (hc ▸ List.mem_cons_self dn l)
        exact ihl _ (fun hc => hnl (List.mem_cons_of_mem dn hc))
          (hvp dep s hdm.1 hdne h)

/-- Claim C1, counterexample: for a non-local extension N declaring a
dependency on the local extension L, the sort emits L first and N last, so
the local extension is not placed after every non-local one. -/
theorem C1_local_last_counterexample :
    sortByDependencies
      [⟨"N", "/nm/N", ⟨some "N", none, none⟩, some ⟨["L"], [], []⟩, false⟩,
       ⟨"L", "/root", ⟨some "L", none, none⟩, none, true⟩] =
      [⟨"L", "/root", ⟨some "L", none, none⟩, none, true⟩,
       ⟨"N", "/nm/N", ⟨some "N", none, none⟩, some ⟨["L"], [], []⟩, false⟩] ∧
    (⟨"L", "/root", ⟨some "L", none, none⟩, none, true⟩ : TitanExtension).isLocal = true ∧
    (⟨"N", "/nm/N", ⟨some "N", none, none⟩, some ⟨["L"], [], []⟩, false⟩ :
      TitanExtension).isLocal = false :=
  ⟨rfl, rfl, rfl⟩

/-- Claim C1, amended: for a discovered set (duplicate-free names, the local
extension unique) in which no extension declares a dependency on the local
extension's name, the sort places the local extension last, after every
non-local one and regardless of the local extension's own declared
dependencies.  The counterexample shows the restriction is needed: a
non-local extension depending on the local name pulls the local extension in
front of it. -/
theorem C1_local_last_amended (exts : List TitanExtension) (loc : TitanExtension)
    (hnodup : (exts.map TitanExtension.name).Nodup)
    (hloc : loc ∈ exts) (hl : loc.isLocal = true)
    (huniq : ∀ e ∈ exts, e.isLocal = true → e = loc)
    (hnd : ∀ e ∈ exts, loc.name ∉ depKeys e) :
    ∃ pre, sortByDependencies exts = pre ++ [loc] ∧ ∀ e ∈ pre, e.isLocal = false := by
  have hfind : exts.find? (fun e => e.isLocal) = some loc := by
    cases hf : exts.find? (fun e => e.isLocal) with
    | none =>
      have := List.find?_eq_none.mp hf loc hloc
      simp [hl] at this
    | some e0 =>
      have he0 := List.mem_of_find?_eq_some hf
      have hp := List.find?_some hf
      have : e0 = loc := huniq e0 he0 (by simpa using hp)
      rw [this]
  have hav := visit_avoidLoc exts loc.name hnd (exts.length + 1)
  have hsub : ∀ e ∈ exts.filter (fun e => !e.isLocal), e ∈ exts :=
    fun e he => (List.mem_filter.mp he).1
  have hrootne : ∀ e ∈ exts.filter (fun e => !e.isLocal), e.name ≠ loc.name := by
    intro e he hc
    have heE := hsub e he
    have : e = loc := List.inj_on_of_nodup_map hnodup heE hloc hc
    have hfalse : e.isLocal = false := by
      have := (List.mem_filter.mp he).2
      revert this
      cases e.isLocal <;> simp
    rw [this, hl] at hfalse
    simp at hfalse
  have favoid : ∀ (roots : List TitanExtension),
      (∀ e ∈ roots, e ∈ exts ∧ e.name ≠ loc.name) → ∀ s : SortState,
      loc.name ∉ s.sorted.map TitanExtension.name →
      loc.name ∉ ((roots.foldl (fun st e => visit exts (exts.length + 1) e st) s)).sorted.map
        TitanExtension.name := by
    intro roots
    induction roots with
    | nil => exact fun _ s h => h
    | cons r roots ih =>
      intro hall s h
      rw [List.foldl_cons]
      have hr := hall r (List.mem_cons_self r roots)
      exact ih (fun e he => hall e (List.mem_cons_of_mem r he)) _
        (hav.1 r s hr.1 hr.2 h)
  set s1 := (exts.filter (fun e => !e.isLocal)).foldl
    (fun st e => visit exts (exts.length + 1) e st) ⟨[], [], []⟩ with hs1
  obtain ⟨hvis1, Δ1, hsort1, hmem1, _, _, hinv1⟩ :=
    visitFold exts (exts.length + 1) _ hsub (⟨[], [], []⟩ : SortState)
  have hJ1 : SortInv s1 := hinv1 ⟨fun n => by simp, by simp⟩
  have havoid1 : loc.name ∉ s1.sorted.map TitanExtension.name :=
    favoid _ (fun e he => ⟨hsub e he, hrootne e he⟩) ⟨[], [], []⟩ (by simp)
  have hnv1 : loc.name ∉ s1.visited := fun hc => havoid1 ((hJ1.1 loc.name).mp hc)
  have hnvis1 : loc.name ∉ s1.visiting := by
    rw [hvis1]
    exact List.not_mem_nil _
  obtain ⟨hvisD, ΔD, hsortD, hmemD, _, _, _⟩ :=
    visitDeps_main_of exts exts.length (visit_main exts exts.length) (depKeys loc)
      ⟨s1.sorted, s1.visited, loc.name :: s1.visiting⟩
  have havoidD : loc.name ∉ (visitDeps exts exts.length (depKeys loc)
      ⟨s1.sorted, s1.visited, loc.name :: s1.visiting⟩).sorted.map TitanExtension.name :=
    (visit_avoidLoc exts loc.name hnd exts.length).2 (depKeys loc) _ (hnd loc hloc) havoid1
  refine ⟨(visitDeps exts exts.length (depKeys loc)
    ⟨s1.sorted, s1.visited, loc.name :: s1.visiting⟩).sorted, ?_, ?_⟩
  · rw [sortByDependencies_eq, hfind]
    show (visit exts (exts.length + 1) loc s1).sorted = _
    rw [visit_succ, if_neg hnv1, if_neg hnvis1]
  · intro e he
    have heE : e ∈ exts := by
      rw [hsortD] at he
      rcases List.mem_append.mp he with h | h
      · rw [hsort1] at h
        exact hmem1 e (by simpa using h)
      · exact hmemD e h
    have hene : e.name ≠ loc.name := by
      intro hc
      have hm := List.mem_map_of_mem TitanExtension.name he
      rw [hc] at hm
      exact havoidD hm
    cases hcase : e.isLocal with
    | false => rfl
    | true =>
      exfalso
      have : e = loc := huniq e heE hcase
      exact hene (by rw [this])

/-- Claim C1, witness: a local extension depending on a non-local one is
placed last, after the non-local extension. -/
theorem C1_local_last_witness :
    ∃ pre, sortByDependencies
      [⟨"N", "/nm/N", ⟨some "N", none, none⟩, none, false⟩,
       ⟨"L", "/root", ⟨some "L", none, none⟩, some ⟨["N"], [], []⟩, true⟩] =
      pre ++ [⟨"L", "/root", ⟨some "L", none, none⟩, some ⟨["N"], [], []⟩, true⟩] ∧
      ∀ e ∈ pre, e.isLocal = false :=
  C1_local_last_amended
    [⟨"N", "/nm/N", ⟨some "N", none, none⟩, none, false⟩,
     ⟨"L", "/root", ⟨some "L", none, none⟩, some ⟨["N"], [], []⟩, true⟩]
    ⟨"L", "/root", ⟨some "L", none, none⟩, some ⟨["N"], [], []⟩, true⟩
    (by decide) (by decide) rfl (by decide) (by decide)

end MicroGravity
